import Mathlib

/-!
Verification of the StellarCade frontend query-cache / invalidation service
(`src/frontend/src/services/query-cache-invalidation.ts`).

The TypeScript module is shallowly embedded: query keys are lists of scalar
segments, the JS `Map` backing the cache is a list of string/entry pairs in
insertion order, timestamps (`Date.now()`) are passed explicitly as natural
numbers, and asynchronous fetchers are modelled as deterministic results
(the spec requires fetchers to be idempotent).  Background refetches that
the source fires with `void this.refetch(key)` are modelled by a queue of
pending keys on the cache state.
-/

set_option maxHeartbeats 1000000

/-- Scalar path segment of a query key.  Modelled from the spec (section 3,
the `QueryKey` type lives in `src/types/query-cache`, which is not part of
the sources): segments are strings, numbers, booleans, or null.  JS numbers
are modelled as integers, the only numeric segments the code ever builds
(`String(gameId)` stringifies them before use). -/
inductive Segment where
  | str (s : String)
  | num (n : Int)
  | bool (b : Bool)
  | null
deriving DecidableEq

/-- A query key is an ordered sequence of scalar segments. -/
abbrev QueryKey := List Segment

/-- Lower-case hexadecimal digit characters, as produced by
`JSON.stringify` for control-character escapes. -/
def hexDigit (n : Nat) : Char :=
  match n with
  | 0 => '0' | 1 => '1' | 2 => '2' | 3 => '3' | 4 => '4'
  | 5 => '5' | 6 => '6' | 7 => '7' | 8 => '8' | 9 => '9'
  | 10 => 'a' | 11 => 'b' | 12 => 'c' | 13 => 'd' | 14 => 'e'
  | _ => 'f'

/-- Numeric value of a hexadecimal digit character (left inverse of
`hexDigit` on values below 16). -/
def hexVal (c : Char) : Nat :=
  if c = '0' then 0 else if c = '1' then 1 else if c = '2' then 2
  else if c = '3' then 3 else if c = '4' then 4 else if c = '5' then 5
  else if c = '6' then 6 else if c = '7' then 7 else if c = '8' then 8
  else if c = '9' then 9 else if c = 'a' then 10 else if c = 'b' then 11
  else if c = 'c' then 12 else if c = 'd' then 13 else if c = 'e' then 14
  else 15

/-- JSON escape of a single character, following `JSON.stringify`:
quote and backslash are escaped, the named control characters use their
short escapes, all other control characters use `\u00XX`, and every other
character is emitted literally. -/
def escChar (c : Char) : List Char :=
  if c = '"' then ['\\', '"']
  else if c = '\\' then ['\\', '\\']
  else if c.toNat = 8 then ['\\', 'b']
  else if c.toNat = 12 then ['\\', 'f']
  else if c.toNat = 10 then ['\\', 'n']
  else if c.toNat = 13 then ['\\', 'r']
  else if c.toNat = 9 then ['\\', 't']
  else if c.toNat < 32 then
    ['\\', 'u', '0', '0', hexDigit (c.toNat / 16), hexDigit (c.toNat % 16)]
  else [c]

/-- JSON escape of the characters of a string (the content between the
surrounding quotes produced by `JSON.stringify`). -/
def escString (s : String) : List Char :=
  (s.data.map escChar).flatten

/-- Decimal digit characters of a positive natural number (most
significant first). -/
def natDigits (n : Nat) : List Char :=
  ((Nat.digits 10 n).map hexDigit).reverse

/-- Decimal rendering of a natural number, as `String(n)` in JS. -/
def encNat (n : Nat) : List Char :=
  if n = 0 then ['0'] else natDigits n

/-- Decimal rendering of an integer, as `JSON.stringify` renders
integer-valued numbers. -/
def encInt (i : Int) : List Char :=
  if i < 0 then '-' :: encNat i.natAbs else encNat i.natAbs

/-- JSON rendering of one scalar segment. -/
def encSeg : Segment → List Char
  | .str s => '"' :: (escString s ++ ['"'])
  | .num n => encInt n
  | .bool true => ['t', 'r', 'u', 'e']
  | .bool false => ['f', 'a', 'l', 's', 'e']
  | .null => ['n', 'u', 'l', 'l']

/-- Comma-joined segment renderings followed by the closing bracket. -/
def joinSegs : List Segment → List Char
  | [] => [']']
  | [x] => encSeg x ++ [']']
  | x :: y :: rest => encSeg x ++ ',' :: joinSegs (y :: rest)

/-- Canonical storage-slot encoding of a query key: the source's
`keyToString(key) { return JSON.stringify(key) }`. -/
def keyToString (k : QueryKey) : String :=
  ⟨'[' :: joinSegs k⟩

/-- Decoder for JSON-escaped string content: consumes characters up to the
closing quote, undoing `escChar`, and returns the decoded characters
together with the rest of the input. -/
def decChars : List Char → Option (List Char × List Char)
  | [] => none
  | '\\' :: 'u' :: h1 :: h2 :: h3 :: h4 :: r =>
      Option.map
        (fun p =>
          (Char.ofNat (4096 * hexVal h1 + 256 * hexVal h2 + 16 * hexVal h3 + hexVal h4) :: p.1,
           p.2))
        (decChars r)
  | '\\' :: e :: r =>
      if e = '"' then Option.map (fun p => ('"' :: p.1, p.2)) (decChars r)
      else if e = '\\' then Option.map (fun p => ('\\' :: p.1, p.2)) (decChars r)
      else if e = 'b' then Option.map (fun p => (Char.ofNat 8 :: p.1, p.2)) (decChars r)
      else if e = 'f' then Option.map (fun p => (Char.ofNat 12 :: p.1, p.2)) (decChars r)
      else if e = 'n' then Option.map (fun p => (Char.ofNat 10 :: p.1, p.2)) (decChars r)
      else if e = 'r' then Option.map (fun p => (Char.ofNat 13 :: p.1, p.2)) (decChars r)
      else if e = 't' then Option.map (fun p => (Char.ofNat 9 :: p.1, p.2)) (decChars r)
      else none
  | c :: rest =>
      if c = '"' then some ([], rest)
      else Option.map (fun p => (c :: p.1, p.2)) (decChars rest)

/-- Scalar segment over the full JS value domain of the spec (section 3):
strings, numbers, booleans, or null.  The JS number type additionally
contains the non-finite values `NaN`, `Infinity` and `-Infinity`, which
`JSON.stringify` renders as `null`; finite numeric segments are modelled
as integers of the double type's safe range (`|n| ≤ 2^53 - 1`, where the
integer-valued doubles are exactly the safe integers and `JSON.stringify`
renders them in the plain decimal form embedded by `encInt` — the
exponential rendering only starts at `1e21`). -/
inductive JsVal where
  | str (s : String)
  | num (n : Int)
  | nan
  | inf
  | negInf
  | bool (b : Bool)
  | null
deriving DecidableEq

/-- A query key over the full JS scalar domain. -/
abbrev JsKey := List JsVal

/-- `JSON.stringify` rendering of one JS scalar: strings, safe-integer
numbers, booleans and null render as in `encSeg`, and the non-finite
numbers `NaN`, `Infinity` and `-Infinity` are all rendered as `null`. -/
def encJsVal : JsVal → List Char
  | .str s => encSeg (.str s)
  | .num n => encInt n
  | .nan => encSeg .null
  | .inf => encSeg .null
  | .negInf => encSeg .null
  | .bool b => encSeg (.bool b)
  | .null => encSeg .null

/-- Comma-joined renderings of JS scalars followed by the closing
bracket. -/
def joinJsVals : List JsVal → List Char
  | [] => [']']
  | [x] => encJsVal x ++ [']']
  | x :: y :: rest => encJsVal x ++ ',' :: joinJsVals (y :: rest)

/-- `JSON.stringify` of a key over the full JS scalar domain. -/
def jsKeyToString (k : JsKey) : String :=
  ⟨'[' :: joinJsVals k⟩

/-- JS scalars with a faithful one-to-one `JSON.stringify` rendering:
strings, booleans, null, and safe-integer numbers.  The non-finite
numbers are excluded — `JSON.stringify` collapses them all to `null`. -/
def goodVal : JsVal → Prop
  | .num n => n.natAbs < 2 ^ 53
  | .nan => False
  | .inf => False
  | .negInf => False
  | _ => True

instance (v : JsVal) : Decidable (goodVal v) := by
  cases v <;> (unfold goodVal; infer_instance)

/-- The scalar segment corresponding to a good JS scalar. -/
def segOfVal : JsVal → Segment
  | .str s => .str s
  | .num n => .num n
  | .bool b => .bool b
  | _ => .null

/-- Decimal digit predicate on characters. -/
def isDig (c : Char) : Prop := 48 ≤ c.toNat ∧ c.toNat ≤ 57

instance (c : Char) : Decidable (isDig c) := by unfold isDig; infer_instance

/-- Suffix that starts with a list delimiter: a comma or a closing bracket. -/
def delimHead : List Char → Prop
  | [] => False
  | c :: _ => c = ',' ∨ c = ']'

/-- Characters that may start the rendering of a segment, per constructor. -/
def segHeadOK : Segment → Char → Prop
  | .str _, c => c = '"'
  | .num _, c => c = '-' ∨ isDig c
  | .bool _, c => c = 't' ∨ c = 'f'
  | .null, c => c = 'n'

/-- Per-entry staleness policy (`QueryPolicy` in the missing
`src/types/query-cache`; shape given by spec section 3). -/
structure QueryPolicy where
  staleTimeMs : Nat
  refetchOnInvalidate : Bool
deriving DecidableEq

/-- Entry metadata (`CacheEntry.meta`): creation, last update, staleness
deadline, and the optional explicit-invalidation stamp. -/
structure EntryMeta where
  createdAt : Nat
  updatedAt : Nat
  staleAt : Nat
  invalidatedAt : Option Nat
deriving DecidableEq

/-- A cache entry holding data of type `α` (`CacheEntry<T>` in the source). -/
structure CacheEntry (α : Type) where
  key : QueryKey
  data : α
  policy : QueryPolicy
  meta : EntryMeta
deriving DecidableEq

/-- Normalized application error.  Modelled from the spec (section 6): the
error normalizer `toAppError` lives in `src/services/error-mapping.ts`,
which is not part of the sources; an `AppError` carries a kind from a fixed
taxonomy and a message. -/
structure AppError where
  kind : String
  message : String
deriving DecidableEq

/-- Modelled from the spec (section 6): `toAppError(raw, kind?, context?)`
normalizes an arbitrary failure (here: its message) into an `AppError`;
the kind defaults to `unknown`. -/
def toAppError (message : String) : AppError :=
  ⟨"unknown", message⟩

/-- Reason attached to a cache-invalidation event (spec section 3). -/
inductive InvalidationReason where
  | manual
  | tx_success
  | tx_failed_retryable
  | tx_failed_terminal
  | mutation_success
  | mutation_failed_retryable
  | mutation_failed_terminal
  | consistency_check
deriving DecidableEq

/-- A game identifier as accepted by `QueryKeys.games.byId` and
`contractTx.gameId`: a string or a number (both are passed through
`String(...)` before entering a key). -/
inductive GameId where
  | s (v : String)
  | n (v : Int)
deriving DecidableEq

/-- JS `String(...)` rendering of a game id. -/
def gidStr : GameId → String
  | .s v => v
  | .n v => ⟨encInt v⟩

/-- Contract-transaction context of an invalidation event
(`CacheInvalidationEvent.contractTx`, shape per spec section 3). -/
structure ContractTxContext where
  contract : String
  method : String
  txHash : Option String
  addresses : Option (List String)
  gameId : Option GameId
deriving DecidableEq

/-- Generic mutation context of an invalidation event (spec section 3). -/
structure MutationContext where
  name : String
  addresses : Option (List String)
deriving DecidableEq

/-- Cache invalidation event (`CacheInvalidationEvent`, spec section 3).
The `at` field of the source is called `at_` because `at` is reserved. -/
structure CacheInvalidationEvent where
  at_ : Nat
  reason : InvalidationReason
  contractTx : Option ContractTxContext
  mutation : Option MutationContext
deriving DecidableEq

/-- The canonical key constructors of the source's `QueryKeys` table. -/
def QueryKeys.balancesRoot : QueryKey := [.str "balances", .str "root"]

/-- Key `balances.account(address)`. -/
def QueryKeys.balancesAccount (address : String) : QueryKey :=
  [.str "balances", .str "account", .str address]

/-- Key `games.root()`. -/
def QueryKeys.gamesRoot : QueryKey := [.str "games", .str "root"]

/-- Key `games.byId(gameId)`; the source stringifies the id. -/
def QueryKeys.gamesById (gameId : GameId) : QueryKey :=
  [.str "games", .str "byId", .str (gidStr gameId)]

/-- Key `games.recentByAddress(address)`. -/
def QueryKeys.gamesRecentByAddress (address : String) : QueryKey :=
  [.str "games", .str "recentByAddress", .str address]

/-- Key `rewards.byAddress(address)`. -/
def QueryKeys.rewardsByAddress (address : String) : QueryKey :=
  [.str "rewards", .str "byAddress", .str address]

/-- Key `profile.byAddress(address)`. -/
def QueryKeys.profileByAddress (address : String) : QueryKey :=
  [.str "profile", .str "byAddress", .str address]

/-- The source's `QueryPolicies` record, looked up by namespace string. -/
def QueryPolicies (ns : String) : Option QueryPolicy :=
  if ns = "balances" then some ⟨3000, true⟩
  else if ns = "games" then some ⟨10000, true⟩
  else if ns = "rewards" then some ⟨5000, true⟩
  else if ns = "profile" then some ⟨60000, true⟩
  else none

/-- JS `String(...)` rendering of a scalar segment, used by the source for
the `QueryPolicies[String(key[0])]` lookup. -/
def segToString : Segment → String
  | .str s => s
  | .num n => ⟨encInt n⟩
  | .bool true => "true"
  | .bool false => "false"
  | .null => "null"

/-- JS `String(key[0])`: the first segment stringified, or `"undefined"`
for an empty key. -/
def headString (key : QueryKey) : String :=
  match key with
  | [] => "undefined"
  | s0 :: _ => segToString s0

/-- Lookup in an insertion-ordered association list (JS `Map.get`). -/
def mapGet {β : Type} (k : String) (l : List (String × β)) : Option β :=
  (l.find? (fun p => p.1 = k)).map (fun p => p.2)

/-- Insertion or in-place update (JS `Map.set`): an existing key keeps its
position, a new key is appended at the end of the insertion order. -/
def mapSet {β : Type} (k : String) (v : β) : List (String × β) → List (String × β)
  | [] => [(k, v)]
  | (k', v') :: rest => if k' = k then (k, v) :: rest else (k', v') :: mapSet k v rest

/-- Deletion (JS `Map.delete`). -/
def mapDelete {β : Type} (k : String) (l : List (String × β)) : List (String × β) :=
  l.filter (fun p => ¬(p.1 = k))

/-- Deterministic model of a registered fetcher: invoking it either
resolves with data or rejects with a raw error message (the spec requires
fetchers to be idempotent, so one result per registration suffices). -/
inductive FetchSpec (α : Type) where
  | resolves (d : α)
  | rejects (msg : String)
deriving DecidableEq

/-- State of a `QueryCache` instance.  `entries` and `fetchers` are the two
JS `Map`s keyed by `keyToString`; a registered fetcher is modelled by the
deterministic result of invoking it (`Except.ok data` for a resolving
fetcher, `Except.error message` for a rejecting one; the spec requires
fetchers to be idempotent).  `maxEntries` is the optional constructor
bound.  `pending` is the queue of background refetches scheduled by
`invalidate` via `void this.refetch(key)` and not yet run. -/
structure QueryCache (α : Type) where
  entries : List (String × CacheEntry α)
  fetchers : List (String × FetchSpec α)
  maxEntries : Option Nat
  pending : List QueryKey
deriving DecidableEq

/-- A cache as built by `new QueryCache(opts)`. -/
def emptyCache (α : Type) (maxEntries : Option Nat) : QueryCache α :=
  ⟨[], [], maxEntries, []⟩

/-- `QueryCache.get`: pure lookup by encoded key. -/
def QueryCache.get {α : Type} (s : QueryCache α) (key : QueryKey) : Option (CacheEntry α) :=
  mapGet (keyToString key) s.entries

/-- `QueryCache.registerFetcher`. -/
def QueryCache.registerFetcher {α : Type} (s : QueryCache α) (key : QueryKey)
    (fetcher : FetchSpec α) : QueryCache α :=
  { s with fetchers := mapSet (keyToString key) fetcher s.fetchers }

/-- Stable insertion of an entry into a list sorted by ascending
`meta.updatedAt` (the comparator `(a, b) => a.meta.updatedAt - b.meta.updatedAt`
of the source; `Array.prototype.sort` is stable). -/
def insUpd {α : Type} (e : CacheEntry α) : List (CacheEntry α) → List (CacheEntry α)
  | [] => [e]
  | x :: xs =>
    if x.meta.updatedAt < e.meta.updatedAt then x :: insUpd e xs else e :: x :: xs

/-- Stable sort of entries by ascending `meta.updatedAt`. -/
def sortByUpdatedAt {α : Type} (l : List (CacheEntry α)) : List (CacheEntry α) :=
  l.foldr insUpd []

/-- Body of `enforceMaxEntries` for a configured bound `m`: if the store
exceeds the bound (`0` is falsy in JS, hence no bound), sort the entries by
ascending `updatedAt` and delete the oldest until the bound holds. -/
def enforceAux {α : Type} (m : Nat) (s : QueryCache α) : QueryCache α :=
  if m = 0 then s
  else if s.entries.length ≤ m then s
  else
    ((sortByUpdatedAt (s.entries.map (fun p => p.2))).take (s.entries.length - m)).foldl
      (fun st e => { st with entries := mapDelete (keyToString e.key) st.entries }) s

/-- `QueryCache.enforceMaxEntries`: no-op without a configured bound. -/
def enforceMaxEntries {α : Type} (s : QueryCache α) : QueryCache α :=
  match s.maxEntries with
  | none => s
  | some m => enforceAux m s

/-- `QueryCache.set`: inserts or overwrites an entry, preserving
`createdAt` (and, as written in the source, carrying over the previous
entry's `invalidatedAt`), stamping `updatedAt = now` and
`staleAt = now + policy.staleTimeMs`, with the policy defaulting to the
namespace policy or the 30s/refetch-enabled fallback; then enforces the
size bound.  Returns the updated cache and the written entry. -/
def QueryCache.set {α : Type} (s : QueryCache α) (ts : Nat) (key : QueryKey) (data : α)
    (policy : Option QueryPolicy) : QueryCache α × CacheEntry α :=
  let existing := s.get key
  let effectivePolicy :=
    match policy with
    | some p => p
    | none =>
      match QueryPolicies (headString key) with
      | some p => p
      | none => ⟨30000, true⟩
  let entry : CacheEntry α :=
    { key := key
      data := data
      policy := effectivePolicy
      meta :=
        { createdAt := match existing with | some e => e.meta.createdAt | none => ts
          updatedAt := ts
          staleAt := ts + effectivePolicy.staleTimeMs
          invalidatedAt := match existing with | some e => e.meta.invalidatedAt | none => none } }
  (enforceMaxEntries { s with entries := mapSet (keyToString key) entry s.entries }, entry)

/-- `QueryCache.isStale`: true when the key is missing, explicitly
invalidated, or past its staleness deadline. -/
def QueryCache.isStale {α : Type} (s : QueryCache α) (ts : Nat) (key : QueryKey) : Bool :=
  match s.get key with
  | none => true
  | some e => e.meta.invalidatedAt.isSome || decide (e.meta.staleAt ≤ ts)

/-- The invalidated version of an entry, as built inside
`QueryCache.invalidate`. -/
def invalidEntry {α : Type} (ts : Nat) (e : CacheEntry α) : CacheEntry α :=
  { e with meta := { e.meta with invalidatedAt := some ts } }

/-- `QueryCache.invalidate`: no-op when the key has no entry; otherwise
stamps `invalidatedAt = now` and, when the entry's policy has
`refetchOnInvalidate`, schedules a background refetch
(`void this.refetch(key)`, modelled by appending to `pending`).  The event
argument is accepted and discarded, as in the source (`_evt`). -/
def QueryCache.invalidate {α : Type} (s : QueryCache α) (ts : Nat) (key : QueryKey)
    (_evt : Option CacheInvalidationEvent) : QueryCache α :=
  match mapGet (keyToString key) s.entries with
  | none => s
  | some e =>
    let updated := invalidEntry ts e
    let s' := { s with entries := mapSet (keyToString key) updated s.entries }
    if updated.policy.refetchOnInvalidate then
      { s' with pending := s'.pending ++ [key] }
    else s'

/-- `QueryCache.invalidatePrefix`: applies `invalidate` to every stored key
whose leading segments equal the given sequence. -/
def hasPrefix (key pre : QueryKey) : Bool :=
  match pre, key with
  | [], _ => true
  | _ :: _, [] => false
  | p :: ps, k :: ks => p = k && hasPrefix ks ps

/-- Iteration of `invalidate` over the stored keys matching a given
sequence of leading segments, as `invalidatePrefix` does. -/
def QueryCache.invalidatePrefix {α : Type} (s : QueryCache α) (ts : Nat) (pre : QueryKey)
    (evt : Option CacheInvalidationEvent) : QueryCache α :=
  (s.entries.map (fun p => p.2.key)).foldl
    (fun st k => if hasPrefix k pre then st.invalidate ts k evt else st) s

/-- `QueryCache.getOrFetch`: returns fresh cached data without fetching;
otherwise consults the registered fetcher, writing through `set` on success
and returning a normalized error (with no cache mutation) when the fetcher
is missing or fails. -/
def QueryCache.getOrFetch {α : Type} (s : QueryCache α) (ts : Nat) (key : QueryKey) :
    Except AppError α × QueryCache α :=
  match s.get key with
  | some e =>
    if s.isStale ts key then
      match mapGet (keyToString key) s.fetchers with
      | none => (Except.error (toAppError "Missing fetcher"), s)
      | some (FetchSpec.resolves d) => (Except.ok d, (s.set ts key d none).1)
      | some (FetchSpec.rejects msg) => (Except.error (toAppError msg), s)
    else (Except.ok e.data, s)
  | none =>
    match mapGet (keyToString key) s.fetchers with
    | none => (Except.error (toAppError "Missing fetcher"), s)
    | some (FetchSpec.resolves d) => (Except.ok d, (s.set ts key d none).1)
    | some (FetchSpec.rejects msg) => (Except.error (toAppError msg), s)

/-- `QueryCache.refetch`: unconditionally consults the registered fetcher;
on success writes through `set`, on failure marks the entry invalidated
(reason `consistency_check`) and returns the normalized error. -/
def QueryCache.refetch {α : Type} (s : QueryCache α) (ts : Nat) (key : QueryKey) :
    Except AppError α × QueryCache α :=
  match mapGet (keyToString key) s.fetchers with
  | none => (Except.error (toAppError "Missing fetcher"), s)
  | some (FetchSpec.resolves d) => (Except.ok d, (s.set ts key d none).1)
  | some (FetchSpec.rejects msg) =>
    (Except.error (toAppError msg),
      s.invalidate ts key
        (some { at_ := ts, reason := .consistency_check, contractTx := none, mutation := none }))

/-- Runs the oldest scheduled background refetch, if any (the microtask
started by `void this.refetch(key)`). -/
def stepPending {α : Type} (ts : Nat) (s : QueryCache α) : QueryCache α :=
  match s.pending with
  | [] => s
  | k :: rest => (QueryCache.refetch { s with pending := rest } ts k).2

/-- Transaction outcome handed to the rule engine (`TxOutcome`). -/
inductive TxOutcome where
  | ok (txHash : Option String)
  | err (error : AppError) (retryable : Bool)
deriving DecidableEq

/-- Input of `QueryCacheInvalidator.applyRules`. -/
structure InvalidationRuleInput where
  outcome : TxOutcome
  event : CacheInvalidationEvent
deriving DecidableEq

/-- `QueryCacheInvalidator.invalidateBalances`: invalidates
`balances.account(addr)` for every affected address. -/
def invalidateBalances {α : Type} (s : QueryCache α) (ts : Nat) (addresses : List String)
    (evt : CacheInvalidationEvent) : QueryCache α :=
  addresses.foldl (fun st a => st.invalidate ts (QueryKeys.balancesAccount a) (some evt)) s

/-- `QueryCacheInvalidator.invalidateCoinFlip`: invalidates
`games.byId(String(gameId))` when a game id is supplied and
`games.recentByAddress(addr)` for every affected address. -/
def invalidateCoinFlip {α : Type} (s : QueryCache α) (ts : Nat) (addresses : List String)
    (gameId : Option GameId) (evt : CacheInvalidationEvent) : QueryCache α :=
  let s1 :=
    match gameId with
    | some g => s.invalidate ts (QueryKeys.gamesById (.s (gidStr g))) (some evt)
    | none => s
  addresses.foldl (fun st a => st.invalidate ts (QueryKeys.gamesRecentByAddress a) (some evt)) s1

/-- `QueryCacheInvalidator.invalidateAchievementBadge`: invalidates
`rewards.byAddress(addr)` and `profile.byAddress(addr)` for every affected
address. -/
def invalidateAchievementBadge {α : Type} (s : QueryCache α) (ts : Nat)
    (addresses : List String) (evt : CacheInvalidationEvent) : QueryCache α :=
  addresses.foldl
    (fun st a =>
      (st.invalidate ts (QueryKeys.rewardsByAddress a) (some evt)).invalidate ts
        (QueryKeys.profileByAddress a) (some evt)) s

/-- `QueryCacheInvalidator.applyRules`: derives the canonical reason from
the outcome, stamps the event (propagating the tx hash on success),
extracts the affected addresses and game id, and applies the rule table:
balances accounts always; the `balances.root` prefix for `prizePool`;
coin-flip keys for `coinFlip`; rewards/profile keys for
`achievementBadge`. -/
def applyRules {α : Type} (s : QueryCache α) (ts : Nat) (input : InvalidationRuleInput) :
    QueryCache α :=
  let reason : InvalidationReason :=
    match input.outcome with
    | .ok _ => .tx_success
    | .err _ r => if r then .tx_failed_retryable else .tx_failed_terminal
  let evt : CacheInvalidationEvent :=
    { at_ := ts
      reason := reason
      contractTx :=
        match input.event.contractTx with
        | some ctx =>
          some { ctx with
            txHash := match input.outcome with | .ok h => h | .err _ _ => ctx.txHash }
        | none => none
      mutation := input.event.mutation }
  let addresses : List String :=
    match evt.contractTx with
    | some ctx =>
      match ctx.addresses with
      | some a => a
      | none =>
        match evt.mutation with
        | some m => match m.addresses with | some a => a | none => []
        | none => []
    | none =>
      match evt.mutation with
      | some m => match m.addresses with | some a => a | none => []
      | none => []
  let gameId : Option GameId :=
    match evt.contractTx with
    | some ctx => ctx.gameId
    | none => none
  let s1 := invalidateBalances s ts addresses evt
  let s2 :=
    if (match evt.contractTx with | some ctx => ctx.contract == "prizePool" | none => false) then
      s1.invalidatePrefix ts QueryKeys.balancesRoot (some evt)
    else s1
  let s3 :=
    if (match evt.contractTx with | some ctx => ctx.contract == "coinFlip" | none => false) then
      invalidateCoinFlip s2 ts addresses gameId evt
    else s2
  if (match evt.contractTx with | some ctx => ctx.contract == "achievementBadge" | none => false) then
    invalidateAchievementBadge s3 ts addresses evt
  else s3

/-- A cache holding only a rejecting fetcher for `games.byId("1")`, as in
the repository's own test for a failing `getOrFetch`. -/
def failFetchCache : QueryCache Nat :=
  { entries := []
    fetchers := [(keyToString (QueryKeys.gamesById (.s "1")), FetchSpec.rejects "boom")]
    maxEntries := none
    pending := [] }

/-- A fresh `rewards.byAddress("GAAA")` entry used by concrete scenarios. -/
def rewardsEntry : CacheEntry Nat :=
  { key := QueryKeys.rewardsByAddress "GAAA"
    data := 1
    policy := ⟨60000, true⟩
    meta := ⟨0, 0, 60000, none⟩ }

/-- A cache holding the fresh `rewards.byAddress("GAAA")` entry and a
rejecting fetcher for the same key. -/
def failRefetchCache : QueryCache Nat :=
  { entries := [(keyToString (QueryKeys.rewardsByAddress "GAAA"), rewardsEntry)]
    fetchers := [(keyToString (QueryKeys.rewardsByAddress "GAAA"), FetchSpec.rejects "boom")]
    maxEntries := none
    pending := [] }

/-- Invariant of the divergent invalidate/refetch cycle: the key still has
an entry whose policy refetches on invalidation, its registered fetcher
still rejects, and exactly one background refetch for it is scheduled. -/
def CycleInv {α : Type} (key : QueryKey) (msg : String) (s : QueryCache α) : Prop :=
  (∃ e, s.get key = some e ∧ e.policy.refetchOnInvalidate = true) ∧
    mapGet (keyToString key) s.fetchers = some (FetchSpec.rejects msg) ∧
    s.pending = [key]

/-- A cache holding a fresh `games.byId("1")` entry and a fresh
`balances.account("GAAA")` entry. -/
def twoNamespaceCache : QueryCache Nat :=
  { entries :=
      [(keyToString (QueryKeys.gamesById (.s "1")),
        { key := QueryKeys.gamesById (.s "1")
          data := 10
          policy := ⟨10000, false⟩
          meta := ⟨0, 0, 10000, none⟩ }),
       (keyToString (QueryKeys.balancesAccount "GAAA"),
        { key := QueryKeys.balancesAccount "GAAA"
          data := 20
          policy := ⟨3000, false⟩
          meta := ⟨0, 0, 3000, none⟩ })]
    fetchers := []
    maxEntries := none
    pending := [] }

/-- State after `set(profile.byAddress("GAAA"), 1)` at time 0 with a
1s/no-refetch policy, on a fresh cache. -/
def c1AfterFirstSet : QueryCache Nat :=
  ((emptyCache Nat none).set 0 (QueryKeys.profileByAddress "GAAA") 1 (some ⟨1000, false⟩)).1

/-- State after invalidating that entry at time 5. -/
def c1AfterInvalidate : QueryCache Nat :=
  c1AfterFirstSet.invalidate 5 (QueryKeys.profileByAddress "GAAA") none

/-- State after `set(profile.byAddress("GAAA"), 2)` at time 10. -/
def c1AfterSecondSet : QueryCache Nat :=
  (c1AfterInvalidate.set 10 (QueryKeys.profileByAddress "GAAA") 2 (some ⟨1000, false⟩)).1

/-- A cache holding one fresh `balances.account("GOTHER")` entry. -/
def gotherCache : QueryCache Nat :=
  { entries :=
      [(keyToString (QueryKeys.balancesAccount "GOTHER"),
        { key := QueryKeys.balancesAccount "GOTHER"
          data := 5
          policy := ⟨3000, false⟩
          meta := ⟨0, 0, 60000, none⟩ })]
    fetchers := []
    maxEntries := none
    pending := [] }

/-- A successful pooled-funds transaction touching address `"GADDR"`. -/
def prizePoolInput : InvalidationRuleInput :=
  { outcome := .ok (some "abc")
    event := ⟨0, .manual, some ⟨"prizePool", "deposit", none, some ["GADDR"], none⟩, none⟩ }

/-- A successful coin-flip transaction for address `"GADDR"` with game id
`"7"`, as in the spec's scenario. -/
def coinFlipInput : InvalidationRuleInput :=
  { outcome := .ok (some "abc")
    event := ⟨0, .manual, some ⟨"coinFlip", "play", none, some ["GADDR"], some (.s "7")⟩, none⟩ }

/-- A store bounded at one entry that holds two entries with equal
`updatedAt` timestamps, exercising the tie-break of eviction. -/
def c5TieCache : QueryCache Nat :=
  { entries :=
      [(keyToString [Segment.str "a"],
        { key := [Segment.str "a"]
          data := 1
          policy := ⟨1000, false⟩
          meta := ⟨0, 7, 1007, none⟩ }),
       (keyToString [Segment.str "b"],
        { key := [Segment.str "b"]
          data := 2
          policy := ⟨1000, false⟩
          meta := ⟨0, 7, 1007, none⟩ })]
    fetchers := []
    maxEntries := some 1
    pending := [] }

/-- A sequence of `set` calls, each carrying the value of `Date.now()` at
the moment of the call (the clock is monotone, so runs of interest have
nondecreasing — possibly repeating — timestamps). -/
def runSets {α : Type} (s : QueryCache α) : List (Nat × QueryKey × α) → QueryCache α
  | [] => s
  | (t, k, d) :: rest => runSets (s.set t k d none).1 rest

/-- The timestamp of the last write of the encoded key `str` in a
sequence of `set` calls, if any. -/
def lastWrite {α : Type} (str : String) : List (Nat × QueryKey × α) → Option Nat
  | [] => none
  | (t, k, _) :: rest =>
    match lastWrite str rest with
    | some u => some u
    | none => if keyToString k = str then some t else none

/-- Number of distinct strings in a list. -/
def distinctCount : List String → Nat
  | [] => 0
  | x :: xs => distinctCount xs + (if x ∈ xs then 0 else 1)

/-- Invariant maintained by a sequence of `set` calls with nondecreasing
timestamps on a cache bounded by `N`: the stored slot strings are distinct
and canonical, each stored entry's `updatedAt` is the time of its key's
last write, the store size is the number of distinct keys capped at `N`,
and no touched but evicted key was written later than any stored entry. -/
def EvictInv {α : Type} (past : List (Nat × QueryKey × α)) (s : QueryCache α)
    (N : Nat) : Prop :=
  ((s.entries.map Prod.fst).Nodup) ∧
  (∀ p ∈ s.entries, p.1 = keyToString p.2.key) ∧
  (∀ p ∈ s.entries, lastWrite p.1 past = some p.2.meta.updatedAt) ∧
  (s.entries.length = min (distinctCount (past.map (fun o => keyToString o.2.1))) N) ∧
  (∀ p ∈ s.entries, ∀ str2 u, str2 ∉ s.entries.map Prod.fst →
    lastWrite str2 past = some u → u ≤ p.2.meta.updatedAt)

theorem hexVal_hexDigit {n : Nat} (h : n < 16) : hexVal (hexDigit n) = n := by
  interval_cases n <;> rfl

theorem decChars_cons_plain (c : Char) (rest : List Char) (h1 : c ≠ '"') (h2 : c ≠ '\\') :
    decChars (c :: rest) = Option.map (fun p => (c :: p.1, p.2)) (decChars rest) := by
  rw [decChars.eq_def]
  split
  · simp_all
  · rename_i heq; simp at heq; exact absurd heq.1 h2
  · rename_i heq; simp at heq; exact absurd heq.1 h2
  · rename_i heq
    simp at heq
    rw [← heq.1, ← heq.2, if_neg h1]

theorem decChars_u (a b : Nat) (ha : a < 16) (hb : b < 16) (rest : List Char) :
    decChars ('\\' :: 'u' :: '0' :: '0' :: hexDigit a :: hexDigit b :: rest) =
      Option.map (fun p => (Char.ofNat (16 * a + b) :: p.1, p.2)) (decChars rest) := by
  have step :
      decChars ('\\' :: 'u' :: '0' :: '0' :: hexDigit a :: hexDigit b :: rest) =
        Option.map
          (fun p =>
            (Char.ofNat (4096 * hexVal '0' + 256 * hexVal '0' +
                16 * hexVal (hexDigit a) + hexVal (hexDigit b)) :: p.1, p.2))
          (decChars rest) := rfl
  have h0 : hexVal '0' = 0 := rfl
  rw [step, hexVal_hexDigit ha, hexVal_hexDigit hb, h0]
  norm_num

theorem decChars_escChar (c : Char) (rest : List Char) :
    decChars (escChar c ++ rest) =
      Option.map (fun p => (c :: p.1, p.2)) (decChars rest) := by
  by_cases hq : c = '"'
  · subst hq; rfl
  by_cases hbs : c = '\\'
  · subst hbs; rfl
  by_cases h8 : c.toNat = 8
  · have hc : Char.ofNat 8 = c := by rw [← h8]; exact Char.ofNat_toNat c
    have he : escChar c = ['\\', 'b'] := by
      unfold escChar; rw [if_neg hq, if_neg hbs, if_pos h8]
    rw [he]
    show Option.map (fun p => (Char.ofNat 8 :: p.1, p.2)) (decChars rest) = _
    rw [hc]
  by_cases h12 : c.toNat = 12
  · have hc : Char.ofNat 12 = c := by rw [← h12]; exact Char.ofNat_toNat c
    have he : escChar c = ['\\', 'f'] := by
      unfold escChar; rw [if_neg hq, if_neg hbs, if_neg h8, if_pos h12]
    rw [he]
    show Option.map (fun p => (Char.ofNat 12 :: p.1, p.2)) (decChars rest) = _
    rw [hc]
  by_cases h10 : c.toNat = 10
  · have hc : Char.ofNat 10 = c := by rw [← h10]; exact Char.ofNat_toNat c
    have he : escChar c = ['\\', 'n'] := by
      unfold escChar; rw [if_neg hq, if_neg hbs, if_neg h8, if_neg h12, if_pos h10]
    rw [he]
    show Option.map (fun p => (Char.ofNat 10 :: p.1, p.2)) (decChars rest) = _
    rw [hc]
  by_cases h13 : c.toNat = 13
  · have hc : Char.ofNat 13 = c := by rw [← h13]; exact Char.ofNat_toNat c
    have he : escChar c = ['\\', 'r'] := by
      unfold escChar; rw [if_neg hq, if_neg hbs, if_neg h8, if_neg h12, if_neg h10, if_pos h13]
    rw [he]
    show Option.map (fun p => (Char.ofNat 13 :: p.1, p.2)) (decChars rest) = _
    rw [hc]
  by_cases h9 : c.toNat = 9
  · have hc : Char.ofNat 9 = c := by rw [← h9]; exact Char.ofNat_toNat c
    have he : escChar c = ['\\', 't'] := by
      unfold escChar
      rw [if_neg hq, if_neg hbs, if_neg h8, if_neg h12, if_neg h10, if_neg h13, if_pos h9]
    rw [he]
    show Option.map (fun p => (Char.ofNat 9 :: p.1, p.2)) (decChars rest) = _
    rw [hc]
  by_cases hlt : c.toNat < 32
  · have he : escChar c =
        ['\\', 'u', '0', '0', hexDigit (c.toNat / 16), hexDigit (c.toNat % 16)] := by
      unfold escChar
      rw [if_neg hq, if_neg hbs, if_neg h8, if_neg h12, if_neg h10, if_neg h13, if_neg h9,
        if_pos hlt]
    have hdiv : c.toNat / 16 < 16 := by omega
    have hmod : c.toNat % 16 < 16 := Nat.mod_lt _ (by norm_num)
    rw [he]
    show decChars ('\\' :: 'u' :: '0' :: '0' :: hexDigit (c.toNat / 16) ::
        hexDigit (c.toNat % 16) :: rest) = _
    rw [decChars_u _ _ hdiv hmod]
    have hval : 16 * (c.toNat / 16) + c.toNat % 16 = c.toNat := by omega
    rw [hval, Char.ofNat_toNat]
  · have he : escChar c = [c] := by
      unfold escChar
      rw [if_neg hq, if_neg hbs, if_neg h8, if_neg h12, if_neg h10, if_neg h13, if_neg h9,
        if_neg hlt]
    rw [he]
    show decChars (c :: rest) = _
    rw [decChars_cons_plain c rest hq hbs]

theorem decChars_escChars (l : List Char) (r : List Char) :
    decChars ((l.map escChar).flatten ++ '"' :: r) = some (l, r) := by
  induction l with
  | nil => rfl
  | cons c l ih =>
      have hsplit : (((c :: l).map escChar).flatten ++ '"' :: r) =
          escChar c ++ ((l.map escChar).flatten ++ '"' :: r) := by
        simp
      rw [hsplit, decChars_escChar, ih]
      rfl

theorem escString_cancel {s1 s2 : String} {r1 r2 : List Char}
    (h : escString s1 ++ '"' :: r1 = escString s2 ++ '"' :: r2) : s1 = s2 ∧ r1 = r2 := by
  have h1 := decChars_escChars s1.data r1
  have h2 := decChars_escChars s2.data r2
  have hs : escString s1 = (s1.data.map escChar).flatten := rfl
  have hs2 : escString s2 = (s2.data.map escChar).flatten := rfl
  rw [hs, hs2] at h
  rw [h, h2] at h1
  obtain ⟨c1⟩ := s1
  obtain ⟨c2⟩ := s2
  simp only [Option.some.injEq, Prod.mk.injEq] at h1
  refine ⟨by simp [← h1.1], h1.2.symm⟩

theorem hexDigit_isDig {d : Nat} (h : d < 10) : isDig (hexDigit d) := by
  interval_cases d <;> decide

theorem hexDigit_toNat {d : Nat} (h : d < 10) : (hexDigit d).toNat = 48 + d := by
  interval_cases d <;> rfl

theorem natDigits_isDig (n : Nat) : ∀ c ∈ natDigits n, isDig c := by
  intro c hc
  unfold natDigits at hc
  rw [List.mem_reverse, List.mem_map] at hc
  obtain ⟨d, hd, rfl⟩ := hc
  exact hexDigit_isDig (Nat.digits_lt_base (by norm_num) hd)

theorem encNat_isDig (n : Nat) : ∀ c ∈ encNat n, isDig c := by
  intro c hc
  unfold encNat at hc
  split at hc
  · simp at hc; subst hc; decide
  · exact natDigits_isDig n c hc

theorem encNat_ne_nil (n : Nat) : encNat n ≠ [] := by
  unfold encNat
  split
  · simp
  · unfold natDigits
    simp only [ne_eq, List.reverse_eq_nil_iff, List.map_eq_nil_iff]
    exact Nat.digits_ne_nil_iff_ne_zero.mpr (by assumption)

theorem digitRun_cancel (d1 : List Char) :
    ∀ (d2 r1 r2 : List Char), (∀ c ∈ d1, isDig c) → (∀ c ∈ d2, isDig c) →
      delimHead r1 → delimHead r2 → d1 ++ r1 = d2 ++ r2 → d1 = d2 ∧ r1 = r2 := by
  induction d1 with
  | nil =>
    intro d2 r1 r2 _ hd2 hr1 hr2 he
    cases d2 with
    | nil => simpa using he
    | cons c d2 =>
      exfalso
      simp only [List.nil_append, List.cons_append] at he
      have hc : isDig c := hd2 c (by simp)
      rw [he] at hr1
      simp only [delimHead] at hr1
      rcases hr1 with h | h <;> (subst h; revert hc; decide)
  | cons c d1 ih =>
    intro d2 r1 r2 hd1 hd2 hr1 hr2 he
    cases d2 with
    | nil =>
      exfalso
      simp only [List.nil_append, List.cons_append] at he
      have hc : isDig c := hd1 c (by simp)
      rw [← he] at hr2
      simp only [delimHead] at hr2
      rcases hr2 with h | h <;> (subst h; revert hc; decide)
    | cons c2 d2 =>
      simp only [List.cons_append, List.cons.injEq] at he
      obtain ⟨hc, ht⟩ := he
      obtain ⟨hd, hr⟩ :=
        ih d2 r1 r2 (fun x hx => hd1 x (by simp [hx])) (fun x hx => hd2 x (by simp [hx])) hr1 hr2 ht
      exact ⟨by rw [hc, hd], hr⟩

theorem map_hexDigit_inj (l1 : List Nat) :
    ∀ l2 : List Nat, (∀ d ∈ l1, d < 10) → (∀ d ∈ l2, d < 10) →
      l1.map hexDigit = l2.map hexDigit → l1 = l2 := by
  induction l1 with
  | nil => intro l2 _ _ h; cases l2 <;> simp_all
  | cons a l1 ih =>
    intro l2 h1 h2 h
    cases l2 with
    | nil => simp_all
    | cons b l2 =>
      simp only [List.map_cons, List.cons.injEq] at h
      have ha : a < 10 := h1 a (by simp)
      have hb : b < 10 := h2 b (by simp)
      have hab : a = b := by
        have := congrArg Char.toNat h.1
        rw [hexDigit_toNat ha, hexDigit_toNat hb] at this
        omega
      have := ih l2 (fun d hd => h1 d (by simp [hd])) (fun d hd => h2 d (by simp [hd])) h.2
      rw [hab, this]

theorem natDigits_inj {n1 n2 : Nat} (h : natDigits n1 = natDigits n2) : n1 = n2 := by
  unfold natDigits at h
  have h' := congrArg List.reverse h
  simp only [List.reverse_reverse] at h'
  have hd := map_hexDigit_inj (Nat.digits 10 n1) (Nat.digits 10 n2)
    (fun d hd => Nat.digits_lt_base (by norm_num) hd)
    (fun d hd => Nat.digits_lt_base (by norm_num) hd) h'
  exact Nat.digits_inj_iff.mp hd

theorem encNat_inj {n1 n2 : Nat} (h : encNat n1 = encNat n2) : n1 = n2 := by
  by_cases z1 : n1 = 0 <;> by_cases z2 : n2 = 0
  · rw [z1, z2]
  · exfalso
    subst z1
    unfold encNat at h
    rw [if_pos rfl, if_neg z2] at h
    have h' := congrArg List.reverse h.symm
    unfold natDigits at h'
    simp only [List.reverse_reverse] at h'
    have hlen : (Nat.digits 10 n2).length = 1 := by
      have := congrArg List.length h'
      simpa using this
    obtain ⟨d, hd⟩ := List.length_eq_one.mp hlen
    rw [hd] at h'
    simp only [List.map_cons, List.map_nil, List.reverse_cons, List.reverse_nil,
      List.nil_append, List.cons.injEq] at h'
    have hdlt : d < 10 := Nat.digits_lt_base (by norm_num) (by rw [hd]; simp)
    have ht : 48 + d = 48 := by
      rw [← hexDigit_toNat hdlt, h'.1]; rfl
    have hd0 : d = 0 := by omega
    have := Nat.ofDigits_digits 10 n2
    rw [hd, hd0] at this
    simp [Nat.ofDigits] at this
    exact z2 this.symm
  · exfalso
    subst z2
    unfold encNat at h
    rw [if_pos rfl, if_neg z1] at h
    have h' := congrArg List.reverse h
    unfold natDigits at h'
    simp only [List.reverse_reverse] at h'
    have hlen : (Nat.digits 10 n1).length = 1 := by
      have := congrArg List.length h'
      simpa using this
    obtain ⟨d, hd⟩ := List.length_eq_one.mp hlen
    rw [hd] at h'
    simp only [List.map_cons, List.map_nil, List.reverse_cons, List.reverse_nil,
      List.nil_append, List.cons.injEq] at h'
    have hdlt : d < 10 := Nat.digits_lt_base (by norm_num) (by rw [hd]; simp)
    have ht : 48 + d = 48 := by
      rw [← hexDigit_toNat hdlt, h'.1]; rfl
    have hd0 : d = 0 := by omega
    have := Nat.ofDigits_digits 10 n1
    rw [hd, hd0] at this
    simp [Nat.ofDigits] at this
    exact z1 this.symm
  · unfold encNat at h
    rw [if_neg z1, if_neg z2] at h
    exact natDigits_inj h

theorem encInt_cancel {i1 i2 : Int} {r1 r2 : List Char} (h1 : delimHead r1) (h2 : delimHead r2)
    (he : encInt i1 ++ r1 = encInt i2 ++ r2) : i1 = i2 ∧ r1 = r2 := by
  unfold encInt at he
  by_cases s1 : i1 < 0 <;> by_cases s2 : i2 < 0
  · rw [if_pos s1, if_pos s2] at he
    simp only [List.cons_append, List.cons.injEq, true_and] at he
    obtain ⟨hn, hr⟩ :=
      digitRun_cancel _ _ _ _ (encNat_isDig _) (encNat_isDig _) h1 h2 he
    have := encNat_inj hn
    exact ⟨by omega, hr⟩
  · exfalso
    rw [if_pos s1, if_neg s2] at he
    obtain ⟨c, t, hct⟩ := List.exists_cons_of_ne_nil (encNat_ne_nil i2.natAbs)
    rw [hct] at he
    simp only [List.cons_append, List.cons.injEq] at he
    have hc : isDig c := encNat_isDig i2.natAbs c (by rw [hct]; simp)
    rw [← he.1] at hc
    revert hc; decide
  · exfalso
    rw [if_neg s1, if_pos s2] at he
    obtain ⟨c, t, hct⟩ := List.exists_cons_of_ne_nil (encNat_ne_nil i1.natAbs)
    rw [hct] at he
    simp only [List.cons_append, List.cons.injEq] at he
    have hc : isDig c := encNat_isDig i1.natAbs c (by rw [hct]; simp)
    rw [he.1] at hc
    revert hc; decide
  · rw [if_neg s1, if_neg s2] at he
    obtain ⟨hn, hr⟩ :=
      digitRun_cancel _ _ _ _ (encNat_isDig _) (encNat_isDig _) h1 h2 he
    have := encNat_inj hn
    exact ⟨by omega, hr⟩

theorem encSeg_cons (s : Segment) : ∃ c t, encSeg s = c :: t ∧ segHeadOK s c := by
  cases s with
  | str s => exact ⟨'"', _, rfl, rfl⟩
  | num n =>
    by_cases h : n < 0
    · refine ⟨'-', encNat n.natAbs, ?_, Or.inl rfl⟩
      show encInt n = _
      unfold encInt
      rw [if_pos h]
    · obtain ⟨c, t, hct⟩ := List.exists_cons_of_ne_nil (encNat_ne_nil n.natAbs)
      refine ⟨c, t, ?_, Or.inr (encNat_isDig _ c (by rw [hct]; simp))⟩
      show encInt n = _
      unfold encInt
      rw [if_neg h, hct]
  | bool b =>
    cases b with
    | false => exact ⟨'f', _, rfl, Or.inr rfl⟩
    | true => exact ⟨'t', _, rfl, Or.inl rfl⟩
  | null => exact ⟨'n', _, rfl, rfl⟩

theorem encSeg_head_eq {a b : Segment} {r1 r2 : List Char}
    (he : encSeg a ++ r1 = encSeg b ++ r2) : ∃ c, segHeadOK a c ∧ segHeadOK b c := by
  obtain ⟨c1, t1, e1, k1⟩ := encSeg_cons a
  obtain ⟨c2, t2, e2, k2⟩ := encSeg_cons b
  rw [e1, e2] at he
  simp only [List.cons_append, List.cons.injEq] at he
  exact ⟨c1, k1, by rw [he.1]; exact k2⟩

theorem segHeadOK_ne_delim {s : Segment} {c : Char} (h : segHeadOK s c) :
    c ≠ ',' ∧ c ≠ ']' := by
  cases s with
  | str s =>
    simp only [segHeadOK] at h
    subst h; exact ⟨by decide, by decide⟩
  | num n =>
    simp only [segHeadOK] at h
    rcases h with h | h
    · subst h; exact ⟨by decide, by decide⟩
    · constructor <;> (intro e; subst e; revert h; decide)
  | bool b =>
    simp only [segHeadOK] at h
    rcases h with h | h <;> (subst h; exact ⟨by decide, by decide⟩)
  | null =>
    simp only [segHeadOK] at h
    subst h; exact ⟨by decide, by decide⟩

theorem encSeg_cancel (a b : Segment) {r1 r2 : List Char} (h1 : delimHead r1)
    (h2 : delimHead r2) (he : encSeg a ++ r1 = encSeg b ++ r2) : a = b ∧ r1 = r2 := by
  rcases a with s1 | n1 | b1 | _ <;> rcases b with s2 | n2 | b2 | _
  · simp only [encSeg, List.cons_append, List.append_assoc, List.singleton_append,
      List.cons.injEq, true_and] at he
    obtain ⟨hs, hr⟩ := escString_cancel he
    exact ⟨by rw [hs], hr⟩
  · exfalso
    obtain ⟨c, k1, k2⟩ := encSeg_head_eq he
    simp only [segHeadOK] at k1 k2
    subst k1
    rcases k2 with k2 | k2
    · revert k2; decide
    · revert k2; decide
  · exfalso
    obtain ⟨c, k1, k2⟩ := encSeg_head_eq he
    simp only [segHeadOK] at k1 k2
    subst k1
    rcases k2 with k2 | k2 <;> (revert k2; decide)
  · exfalso
    obtain ⟨c, k1, k2⟩ := encSeg_head_eq he
    simp only [segHeadOK] at k1 k2
    subst k1
    revert k2; decide
  · exfalso
    obtain ⟨c, k1, k2⟩ := encSeg_head_eq he
    simp only [segHeadOK] at k1 k2
    subst k2
    rcases k1 with k1 | k1 <;> (revert k1; decide)
  · simp only [encSeg] at he
    obtain ⟨hn, hr⟩ := encInt_cancel h1 h2 he
    exact ⟨by rw [hn], hr⟩
  · exfalso
    obtain ⟨c, k1, k2⟩ := encSeg_head_eq he
    simp only [segHeadOK] at k1 k2
    rcases k1 with k1 | k1 <;> rcases k2 with k2 | k2 <;> (subst k2; revert k1; decide)
  · exfalso
    obtain ⟨c, k1, k2⟩ := encSeg_head_eq he
    simp only [segHeadOK] at k1 k2
    subst k2
    rcases k1 with k1 | k1 <;> (revert k1; decide)
  · exfalso
    obtain ⟨c, k1, k2⟩ := encSeg_head_eq he
    simp only [segHeadOK] at k1 k2
    subst k2
    rcases k1 with k1 | k1 <;> (revert k1; decide)
  · exfalso
    obtain ⟨c, k1, k2⟩ := encSeg_head_eq he
    simp only [segHeadOK] at k1 k2
    rcases k1 with k1 | k1 <;> rcases k2 with k2 | k2 <;> (subst k1; revert k2; decide)
  · rcases b1 with _ | _ <;> rcases b2 with _ | _
    · simp only [encSeg, List.cons_append, List.nil_append, List.cons.injEq, true_and] at he
      exact ⟨rfl, he⟩
    · exfalso
      simp only [encSeg, List.cons_append, List.cons.injEq] at he
      exact absurd he.1 (by decide)
    · exfalso
      simp only [encSeg, List.cons_append, List.cons.injEq] at he
      exact absurd he.1 (by decide)
    · simp only [encSeg, List.cons_append, List.nil_append, List.cons.injEq, true_and] at he
      exact ⟨rfl, he⟩
  · exfalso
    obtain ⟨c, k1, k2⟩ := encSeg_head_eq he
    simp only [segHeadOK] at k1 k2
    subst k2
    rcases k1 with k1 | k1 <;> (revert k1; decide)
  · exfalso
    obtain ⟨c, k1, k2⟩ := encSeg_head_eq he
    simp only [segHeadOK] at k1 k2
    subst k2
    revert k1; decide
  · exfalso
    obtain ⟨c, k1, k2⟩ := encSeg_head_eq he
    simp only [segHeadOK] at k1 k2
    subst k1
    rcases k2 with k2 | k2 <;> (revert k2; decide)
  · exfalso
    obtain ⟨c, k1, k2⟩ := encSeg_head_eq he
    simp only [segHeadOK] at k1 k2
    subst k1
    rcases k2 with k2 | k2 <;> (revert k2; decide)
  · simp only [encSeg, List.cons_append, List.nil_append, List.cons.injEq, true_and] at he
    exact ⟨rfl, he⟩

theorem delimHead_bracket (l : List Char) : delimHead (']' :: l) := by
  simp [delimHead]

theorem delimHead_comma (l : List Char) : delimHead (',' :: l) := by
  simp [delimHead]

theorem joinSegs_inj : ∀ k1 k2 : List Segment, joinSegs k1 = joinSegs k2 → k1 = k2 := by
  intro k1
  induction k1 with
  | nil =>
    intro k2 h
    cases k2 with
    | nil => rfl
    | cons y k2' =>
      exfalso
      obtain ⟨c, t, e, k⟩ := encSeg_cons y
      cases k2' with
      | nil =>
        simp only [joinSegs] at h
        rw [e] at h
        simp only [List.cons_append, List.cons.injEq] at h
        exact absurd h.1.symm (segHeadOK_ne_delim k).2
      | cons z k2'' =>
        simp only [joinSegs] at h
        rw [e] at h
        simp only [List.cons_append, List.cons.injEq] at h
        exact absurd h.1.symm (segHeadOK_ne_delim k).2
  | cons x k1' ih =>
    intro k2 h
    cases k1' with
    | nil =>
      cases k2 with
      | nil =>
        exfalso
        obtain ⟨c, t, e, k⟩ := encSeg_cons x
        simp only [joinSegs] at h
        rw [e] at h
        simp only [List.cons_append, List.cons.injEq] at h
        exact absurd h.1 (segHeadOK_ne_delim k).2
      | cons y k2' =>
        cases k2' with
        | nil =>
          simp only [joinSegs] at h
          obtain ⟨ha, _⟩ := encSeg_cancel x y (delimHead_bracket []) (delimHead_bracket []) h
          rw [ha]
        | cons z k2'' =>
          exfalso
          simp only [joinSegs] at h
          obtain ⟨_, hr⟩ := encSeg_cancel x y (delimHead_bracket []) (delimHead_comma _) h
          simp only [List.cons.injEq] at hr
          exact absurd hr.1 (by decide)
    | cons w k1'' =>
      cases k2 with
      | nil =>
        exfalso
        obtain ⟨c, t, e, k⟩ := encSeg_cons x
        simp only [joinSegs] at h
        rw [e] at h
        simp only [List.cons_append, List.cons.injEq] at h
        exact absurd h.1 (segHeadOK_ne_delim k).2
      | cons y k2' =>
        cases k2' with
        | nil =>
          exfalso
          simp only [joinSegs] at h
          obtain ⟨_, hr⟩ := encSeg_cancel x y (delimHead_comma _) (delimHead_bracket []) h
          simp only [List.cons.injEq] at hr
          exact absurd hr.1 (by decide)
        | cons z k2'' =>
          simp only [joinSegs] at h
          obtain ⟨ha, hr⟩ := encSeg_cancel x y (delimHead_comma _) (delimHead_comma _) h
          simp only [List.cons.injEq] at hr
          have := ih (z :: k2'') hr.2
          rw [ha, this]

theorem keyToString_inj {k1 k2 : QueryKey} (h : keyToString k1 = keyToString k2) :
    k1 = k2 := by
  have hd : '[' :: joinSegs k1 = '[' :: joinSegs k2 := congrArg String.data h
  injection hd with _ hd'
  exact joinSegs_inj k1 k2 hd'

theorem encJsVal_good (v : JsVal) (h : goodVal v) : encJsVal v = encSeg (segOfVal v) := by
  cases v with
  | str s => rfl
  | num n => rfl
  | bool b => cases b <;> rfl
  | null => rfl
  | nan => exact False.elim h
  | inf => exact False.elim h
  | negInf => exact False.elim h

theorem segOfVal_inj (v1 v2 : JsVal) (h1 : goodVal v1) (h2 : goodVal v2)
    (h : segOfVal v1 = segOfVal v2) : v1 = v2 := by
  cases v1 <;> cases v2 <;> simp_all [goodVal, segOfVal]

theorem joinJsVals_good (k : JsKey) (h : ∀ v ∈ k, goodVal v) :
    joinJsVals k = joinSegs (k.map segOfVal) := by
  induction k with
  | nil => rfl
  | cons x rest ih =>
    cases rest with
    | nil =>
      show encJsVal x ++ [']'] = encSeg (segOfVal x) ++ [']']
      rw [encJsVal_good x (h x (by simp))]
    | cons y rest2 =>
      show encJsVal x ++ ',' :: joinJsVals (y :: rest2) =
        encSeg (segOfVal x) ++ ',' :: joinSegs ((y :: rest2).map segOfVal)
      rw [encJsVal_good x (h x (by simp)),
        ih (fun v hv => h v (List.mem_cons_of_mem _ hv))]

theorem map_segOfVal_inj (k1 : JsKey) :
    ∀ k2 : JsKey, (∀ v ∈ k1, goodVal v) → (∀ v ∈ k2, goodVal v) →
      k1.map segOfVal = k2.map segOfVal → k1 = k2 := by
  induction k1 with
  | nil =>
    intro k2 _ _ h
    cases k2 with
    | nil => rfl
    | cons b l => cases h
  | cons a l1 ih =>
    intro k2 h1 h2 h
    cases k2 with
    | nil => cases h
    | cons b l2 =>
      simp only [List.map_cons, List.cons.injEq] at h
      have ha := segOfVal_inj a b (h1 a (by simp)) (h2 b (by simp)) h.1
      rw [ha, ih l2 (fun v hv => h1 v (List.mem_cons_of_mem _ hv))
        (fun v hv => h2 v (List.mem_cons_of_mem _ hv)) h.2]

theorem mapGet_cons {β : Type} (k k1 : String) (v1 : β) (l : List (String × β)) :
    mapGet k ((k1, v1) :: l) = if k1 = k then some v1 else mapGet k l := by
  by_cases h : k1 = k
  · simp [mapGet, List.find?_cons, h]
  · simp [mapGet, List.find?_cons, h]

theorem mapGet_mapSet_self {β : Type} (k : String) (v : β) (l : List (String × β)) :
    mapGet k (mapSet k v l) = some v := by
  induction l with
  | nil => simp [mapSet, mapGet_cons]
  | cons p l ih =>
    obtain ⟨k1, v1⟩ := p
    unfold mapSet
    by_cases h : k1 = k
    · rw [if_pos h, mapGet_cons, if_pos rfl]
    · rw [if_neg h, mapGet_cons, if_neg h, ih]

theorem mapGet_mapSet_ne {β : Type} {k' k : String} (h : k' ≠ k) (v : β)
    (l : List (String × β)) : mapGet k' (mapSet k v l) = mapGet k' l := by
  induction l with
  | nil =>
    rw [show mapSet k v ([] : List (String × β)) = [(k, v)] from rfl, mapGet_cons,
      if_neg (fun e => h e.symm)]
  | cons p l ih =>
    obtain ⟨k1, v1⟩ := p
    unfold mapSet
    by_cases hk : k1 = k
    · rw [if_pos hk, mapGet_cons, mapGet_cons, hk, if_neg (fun e => h e.symm),
        if_neg (fun e => h e.symm)]
    · rw [if_neg hk, mapGet_cons, mapGet_cons, ih]

theorem invalidEntry_idem {α : Type} (ts : Nat) (x : Option (CacheEntry α)) :
    Option.map (invalidEntry ts) (Option.map (invalidEntry ts) x) =
      Option.map (invalidEntry ts) x := by
  cases x <;> rfl

theorem invalidate_entries {α : Type} (s : QueryCache α) (ts : Nat) (key : QueryKey)
    (evt : Option CacheInvalidationEvent) (str : String) :
    mapGet str (s.invalidate ts key evt).entries =
      if keyToString key = str then Option.map (invalidEntry ts) (mapGet str s.entries)
      else mapGet str s.entries := by
  unfold QueryCache.invalidate
  cases hg : mapGet (keyToString key) s.entries with
  | none =>
    by_cases h : keyToString key = str
    · rw [if_pos h, ← h, hg]
      rfl
    · rw [if_neg h]
  | some e =>
    simp only
    rw [apply_ite QueryCache.entries]
    simp only
    rw [ite_self]
    by_cases h : keyToString key = str
    · rw [if_pos h, ← h, hg, mapGet_mapSet_self]
      rfl
    · rw [if_neg h, mapGet_mapSet_ne (fun e => h e.symm)]

theorem invalidate_fetchers {α : Type} (s : QueryCache α) (ts : Nat) (key : QueryKey)
    (evt : Option CacheInvalidationEvent) : (s.invalidate ts key evt).fetchers = s.fetchers := by
  unfold QueryCache.invalidate
  cases mapGet (keyToString key) s.entries with
  | none => rfl
  | some e =>
    simp only
    split <;> rfl

theorem invalidate_maxEntries {α : Type} (s : QueryCache α) (ts : Nat) (key : QueryKey)
    (evt : Option CacheInvalidationEvent) :
    (s.invalidate ts key evt).maxEntries = s.maxEntries := by
  unfold QueryCache.invalidate
  cases mapGet (keyToString key) s.entries with
  | none => rfl
  | some e =>
    simp only
    split <;> rfl

theorem foldl_invalidate_entries {α β : Type} (f : β → QueryKey) (l : List β) (s : QueryCache α)
    (ts : Nat) (evt : Option CacheInvalidationEvent) (str : String) :
    mapGet str ((l.foldl (fun st b => st.invalidate ts (f b) evt) s).entries) =
      if ∃ b ∈ l, keyToString (f b) = str then
        Option.map (invalidEntry ts) (mapGet str s.entries)
      else mapGet str s.entries := by
  induction l generalizing s with
  | nil => simp
  | cons b l ih =>
    rw [List.foldl_cons, ih]
    by_cases c2 : keyToString (f b) = str
    · by_cases c1 : ∃ x ∈ l, keyToString (f x) = str
      · rw [if_pos c1, invalidate_entries, if_pos c2, invalidEntry_idem,
          if_pos ⟨b, by simp, c2⟩]
      · rw [if_neg c1, invalidate_entries, if_pos c2, if_pos ⟨b, by simp, c2⟩]
    · by_cases c1 : ∃ x ∈ l, keyToString (f x) = str
      · obtain ⟨x, hx, hxs⟩ := c1
        have hcons : ∃ k ∈ b :: l, keyToString (f k) = str :=
          ⟨x, List.mem_cons_of_mem b hx, hxs⟩
        rw [invalidate_entries, if_neg c2, if_pos hcons, if_pos ⟨x, hx, hxs⟩]
      · rw [if_neg c1, invalidate_entries, if_neg c2, if_neg ?_]
        rintro ⟨x, hx, hxs⟩
        rcases List.mem_cons.mp hx with h | h
        · exact c2 (h ▸ hxs)
        · exact c1 ⟨x, h, hxs⟩

theorem foldl_guard_invalidate_entries {α : Type} (g : QueryKey → Bool) (l : List QueryKey)
    (s : QueryCache α) (ts : Nat) (evt : Option CacheInvalidationEvent) (str : String) :
    mapGet str ((l.foldl (fun st k => if g k then st.invalidate ts k evt else st) s).entries) =
      if ∃ k ∈ l, g k = true ∧ keyToString k = str then
        Option.map (invalidEntry ts) (mapGet str s.entries)
      else mapGet str s.entries := by
  induction l generalizing s with
  | nil => simp
  | cons b l ih =>
    rw [List.foldl_cons, ih]
    by_cases cg : g b = true
    · rw [if_pos cg]
      by_cases c2 : keyToString b = str
      · by_cases c1 : ∃ x ∈ l, g x = true ∧ keyToString x = str
        · rw [if_pos c1, invalidate_entries, if_pos c2, invalidEntry_idem,
            if_pos ⟨b, by simp, cg, c2⟩]
        · rw [if_neg c1, invalidate_entries, if_pos c2, if_pos ⟨b, by simp, cg, c2⟩]
      · by_cases c1 : ∃ x ∈ l, g x = true ∧ keyToString x = str
        · obtain ⟨x, hx, hxs⟩ := c1
          have hcons : ∃ k ∈ b :: l, g k = true ∧ keyToString k = str :=
            ⟨x, List.mem_cons_of_mem b hx, hxs⟩
          rw [invalidate_entries, if_neg c2, if_pos hcons, if_pos ⟨x, hx, hxs⟩]
        · rw [if_neg c1, invalidate_entries, if_neg c2, if_neg ?_]
          rintro ⟨x, hx, hxg, hxs⟩
          rcases List.mem_cons.mp hx with h | h
          · exact c2 (h ▸ hxs)
          · exact c1 ⟨x, h, hxg, hxs⟩
    · rw [if_neg cg]
      by_cases c1 : ∃ x ∈ l, g x = true ∧ keyToString x = str
      · obtain ⟨x, hx, hxs⟩ := c1
        have hcons : ∃ k ∈ b :: l, g k = true ∧ keyToString k = str :=
          ⟨x, List.mem_cons_of_mem b hx, hxs⟩
        rw [if_pos hcons, if_pos ⟨x, hx, hxs⟩]
      · rw [if_neg c1, if_neg ?_]
        rintro ⟨x, hx, hxg, hxs⟩
        rcases List.mem_cons.mp hx with h | h
        · rw [h] at hxg; exact cg hxg
        · exact c1 ⟨x, h, hxg, hxs⟩

theorem invalidate_get_self {α : Type} (s : QueryCache α) (ts : Nat) (key : QueryKey)
    (evt : Option CacheInvalidationEvent) (e : CacheEntry α) (hg : s.get key = some e) :
    (s.invalidate ts key evt).get key = some (invalidEntry ts e) := by
  unfold QueryCache.get at hg ⊢
  rw [invalidate_entries, if_pos rfl, hg]
  rfl

theorem isStale_invalidated {α : Type} (s : QueryCache α) (ts ts' : Nat) (key : QueryKey)
    (e : CacheEntry α) (hg : s.get key = some (invalidEntry ts e)) :
    s.isStale ts' key = true := by
  unfold QueryCache.isStale
  rw [hg]
  simp [invalidEntry]

/-- C7: `invalidate(key, event?)` is a no-op on the whole store state when
the key has no stored entry; when an entry exists it non-destructively
stamps `invalidatedAt = now`, so a subsequent `get` still returns the
previous data while `isStale` is true (at every clock reading). -/
theorem invalidate_spec {α : Type} (s : QueryCache α) (ts : Nat) (key : QueryKey)
    (evt : Option CacheInvalidationEvent) :
    match s.get key with
    | none => s.invalidate ts key evt = s
    | some e =>
      (s.invalidate ts key evt).get key = some (invalidEntry ts e) ∧
        (invalidEntry ts e).data = e.data ∧
        ∀ ts' : Nat, (s.invalidate ts key evt).isStale ts' key = true := by
  cases hg : s.get key with
  | none =>
    unfold QueryCache.get at hg
    unfold QueryCache.invalidate
    rw [hg]
  | some e =>
    refine ⟨invalidate_get_self s ts key evt e hg, rfl, fun ts' => ?_⟩
    exact isStale_invalidated _ ts ts' key e (invalidate_get_self s ts key evt e hg)

/-- C3: when `getOrFetch` cannot serve a fresh entry and the fetcher is
missing or failing, it returns a normalized error and the cache is left
completely unchanged, so a subsequent `get` returns exactly what it did
before the call. -/
theorem getOrFetch_failure_no_mutation {α : Type} (s : QueryCache α) (ts : Nat) (key : QueryKey)
    (hmiss : s.get key = none ∨ s.isStale ts key = true)
    (hfet : mapGet (keyToString key) s.fetchers = none ∨
      ∃ msg, mapGet (keyToString key) s.fetchers = some (FetchSpec.rejects msg)) :
    (∃ err : AppError, (s.getOrFetch ts key).1 = Except.error err) ∧
      (s.getOrFetch ts key).2 = s ∧
      (s.getOrFetch ts key).2.get key = s.get key := by
  unfold QueryCache.getOrFetch
  cases hg : s.get key with
  | none =>
    simp only [hg]
    rcases hfet with h | ⟨msg, h⟩ <;> rw [h]
    · exact ⟨⟨toAppError "Missing fetcher", rfl⟩, rfl, hg⟩
    · exact ⟨⟨toAppError msg, rfl⟩, rfl, hg⟩
  | some e =>
    have hstale : s.isStale ts key = true := by
      rcases hmiss with h | h
      · rw [h] at hg; cases hg
      · exact h
    simp only [hg, hstale, if_true]
    rcases hfet with h | ⟨msg, h⟩ <;> rw [h]
    · exact ⟨⟨toAppError "Missing fetcher", rfl⟩, rfl, hg⟩
    · exact ⟨⟨toAppError msg, rfl⟩, rfl, hg⟩

/-- Witness for C3 at a concrete input: a throwing fetcher registered for
`games.byId("1")` on an empty cache makes `getOrFetch` return an error
while `get` still returns none. -/
theorem getOrFetch_failure_no_mutation_witness :
    ((failFetchCache.get (QueryKeys.gamesById (.s "1")) = none ∨
        failFetchCache.isStale 0 (QueryKeys.gamesById (.s "1")) = true) ∧
      (mapGet (keyToString (QueryKeys.gamesById (.s "1"))) failFetchCache.fetchers = none ∨
        ∃ msg, mapGet (keyToString (QueryKeys.gamesById (.s "1"))) failFetchCache.fetchers =
          some (FetchSpec.rejects msg))) ∧
      ((∃ err : AppError,
          (failFetchCache.getOrFetch 0 (QueryKeys.gamesById (.s "1"))).1 = Except.error err) ∧
        (failFetchCache.getOrFetch 0 (QueryKeys.gamesById (.s "1"))).2 = failFetchCache ∧
        (failFetchCache.getOrFetch 0 (QueryKeys.gamesById (.s "1"))).2.get
            (QueryKeys.gamesById (.s "1")) =
          failFetchCache.get (QueryKeys.gamesById (.s "1"))) :=
  ⟨⟨Or.inl rfl, Or.inr ⟨"boom", rfl⟩⟩,
    getOrFetch_failure_no_mutation failFetchCache 0 (QueryKeys.gamesById (.s "1"))
      (Or.inl rfl) (Or.inr ⟨"boom", rfl⟩)⟩

/-- C4: a failing `refetch` on a key with a stored entry and a registered
fetcher returns the normalized error, a subsequent `get` still returns the
previously cached data (only the invalidation stamp changed), and
`isStale` becomes true because the entry was invalidated (the source calls
`invalidate` with reason `consistency_check`). -/
theorem refetch_failure_retains_and_flags {α : Type} (s : QueryCache α) (ts : Nat)
    (key : QueryKey) (e : CacheEntry α) (msg : String)
    (hg : s.get key = some e)
    (hf : mapGet (keyToString key) s.fetchers = some (FetchSpec.rejects msg)) :
    (s.refetch ts key).1 = Except.error (toAppError msg) ∧
      (s.refetch ts key).2.get key = some (invalidEntry ts e) ∧
      (invalidEntry ts e).data = e.data ∧
      ∀ ts' : Nat, (s.refetch ts key).2.isStale ts' key = true := by
  unfold QueryCache.refetch
  rw [hf]
  have hget : (s.invalidate ts key
      (some ⟨ts, .consistency_check, none, none⟩)).get key = some (invalidEntry ts e) :=
    invalidate_get_self s ts key _ e hg
  exact ⟨rfl, hget, rfl, fun ts' => isStale_invalidated _ ts ts' key e hget⟩

/-- Witness for C4 at a concrete input. -/
theorem refetch_failure_retains_and_flags_witness :
    (failRefetchCache.get (QueryKeys.rewardsByAddress "GAAA") = some rewardsEntry ∧
      mapGet (keyToString (QueryKeys.rewardsByAddress "GAAA")) failRefetchCache.fetchers =
        some (FetchSpec.rejects "boom")) ∧
      ((failRefetchCache.refetch 5 (QueryKeys.rewardsByAddress "GAAA")).1 =
          Except.error (toAppError "boom") ∧
        (failRefetchCache.refetch 5 (QueryKeys.rewardsByAddress "GAAA")).2.get
            (QueryKeys.rewardsByAddress "GAAA") = some (invalidEntry 5 rewardsEntry) ∧
        (invalidEntry 5 rewardsEntry).data = rewardsEntry.data ∧
        ∀ ts' : Nat,
          (failRefetchCache.refetch 5 (QueryKeys.rewardsByAddress "GAAA")).2.isStale ts'
            (QueryKeys.rewardsByAddress "GAAA") = true) :=
  ⟨⟨rfl, rfl⟩,
    refetch_failure_retains_and_flags failRefetchCache 5 (QueryKeys.rewardsByAddress "GAAA")
      rewardsEntry "boom" rfl rfl⟩

theorem invalidate_pending_scheduled {α : Type} (s : QueryCache α) (ts : Nat) (key : QueryKey)
    (evt : Option CacheInvalidationEvent) (e : CacheEntry α)
    (hg : mapGet (keyToString key) s.entries = some e)
    (hpol : e.policy.refetchOnInvalidate = true) :
    (s.invalidate ts key evt).pending = s.pending ++ [key] := by
  unfold QueryCache.invalidate
  rw [hg]
  simp only
  rw [if_pos (show (invalidEntry ts e).policy.refetchOnInvalidate = true from hpol)]

theorem stepPending_cycle {α : Type} (ts : Nat) (key : QueryKey) (msg : String)
    (s : QueryCache α) (h : CycleInv key msg s) : CycleInv key msg (stepPending ts s) := by
  obtain ⟨⟨e, hg, hpol⟩, hf, hp⟩ := h
  unfold stepPending
  rw [hp]
  simp only
  unfold QueryCache.refetch
  have hf0 : mapGet (keyToString key)
      ({ s with pending := ([] : List QueryKey) } : QueryCache α).fetchers =
        some (FetchSpec.rejects msg) := hf
  rw [hf0]
  simp only
  have hg0 : ({ s with pending := ([] : List QueryKey) } : QueryCache α).get key = some e := hg
  refine ⟨⟨invalidEntry ts e, invalidate_get_self _ ts key _ e hg0, hpol⟩, ?_, ?_⟩
  · rw [invalidate_fetchers]
    exact hf0
  · rw [invalidate_pending_scheduled _ ts key _ e hg0 hpol]
    rfl

/-- C10: with a stored entry whose policy has `refetchOnInvalidate = true`
and a registered fetcher that always fails, the invalidate/refetch cycle
never terminates: after `invalidate` and any number of background refetch
steps, another background refetch for the same key is always scheduled. -/
theorem invalidate_refetch_cycle_diverges {α : Type} (s : QueryCache α) (ts0 ts : Nat)
    (key : QueryKey) (e : CacheEntry α) (msg : String) (evt : Option CacheInvalidationEvent)
    (hg : s.get key = some e)
    (hpol : e.policy.refetchOnInvalidate = true)
    (hf : mapGet (keyToString key) s.fetchers = some (FetchSpec.rejects msg))
    (hp : s.pending = []) :
    ∀ n : Nat, ((stepPending ts)^[n] (s.invalidate ts0 key evt)).pending = [key] := by
  have h0 : CycleInv key msg (s.invalidate ts0 key evt) := by
    refine ⟨⟨invalidEntry ts0 e, invalidate_get_self s ts0 key evt e hg, hpol⟩, ?_, ?_⟩
    · rw [invalidate_fetchers]
      exact hf
    · rw [invalidate_pending_scheduled s ts0 key evt e hg hpol, hp]
      rfl
  have hall : ∀ n : Nat, CycleInv key msg ((stepPending ts)^[n] (s.invalidate ts0 key evt)) := by
    intro n
    induction n with
    | zero => simpa using h0
    | succ n ih =>
      rw [Function.iterate_succ_apply']
      exact stepPending_cycle ts key msg _ ih
  intro n
  exact (hall n).2.2

/-- Witness for C10 at a concrete input: the rewards entry with a
rejecting fetcher loops forever once invalidated. -/
theorem invalidate_refetch_cycle_diverges_witness :
    (failRefetchCache.get (QueryKeys.rewardsByAddress "GAAA") = some rewardsEntry ∧
      rewardsEntry.policy.refetchOnInvalidate = true ∧
      mapGet (keyToString (QueryKeys.rewardsByAddress "GAAA")) failRefetchCache.fetchers =
        some (FetchSpec.rejects "boom") ∧
      failRefetchCache.pending = []) ∧
      ∀ n : Nat,
        ((stepPending 7)^[n]
            (failRefetchCache.invalidate 3 (QueryKeys.rewardsByAddress "GAAA") none)).pending =
          [QueryKeys.rewardsByAddress "GAAA"] :=
  ⟨⟨rfl, rfl, rfl, rfl⟩,
    invalidate_refetch_cycle_diverges failRefetchCache 3 7 (QueryKeys.rewardsByAddress "GAAA")
      rewardsEntry "boom" none rfl rfl rfl rfl⟩

/-- C9 at the refuting input: over the full JS number domain the claimed
collision-freeness is false, because `JSON.stringify` renders the
non-finite number `NaN` as `null`, so the structurally different keys
`[NaN]` and `[null]` collide on the same storage slot `"[null]"` (and the
same happens for `Infinity` and `-Infinity`). -/
theorem stringify_nan_null_collision :
    ([JsVal.nan] ≠ [JsVal.null]) ∧
      jsKeyToString [JsVal.nan] = jsKeyToString [JsVal.null] ∧
      jsKeyToString [JsVal.nan] = "[null]" :=
  ⟨by decide, rfl, rfl⟩

/-- C9 (amended to the collision-free scalar domain): for keys whose
segments are strings, booleans, null, or finite safe-integer numbers —
the domain on which `JSON.stringify` has a faithful one-to-one rendering —
the storage-slot encoding is canonical and collision-free: two encodings
are equal exactly when the keys are element-wise equal, so structurally
equal keys share a storage slot and structurally different keys never
collide.  The unrestricted claim is false: `JSON.stringify` collapses the
non-finite numbers `NaN`, `Infinity` and `-Infinity` to `null`, so
`[NaN]` and `[null]` are structurally different keys sharing the slot
`"[null]"`. -/
theorem keyToString_canonical (k1 k2 : JsKey) (h1 : ∀ v ∈ k1, goodVal v)
    (h2 : ∀ v ∈ k2, goodVal v) :
    jsKeyToString k1 = jsKeyToString k2 ↔ k1 = k2 := by
  constructor
  · intro h
    have hd : '[' :: joinJsVals k1 = '[' :: joinJsVals k2 := congrArg String.data h
    injection hd with _ hd'
    rw [joinJsVals_good k1 h1, joinJsVals_good k2 h2] at hd'
    exact map_segOfVal_inj k1 k2 h1 h2 (joinSegs_inj _ _ hd')
  · intro h
    rw [h]

/-- Witness for the amended C9 at concrete keys of the good domain. -/
theorem keyToString_canonical_witness :
    ((∀ v ∈ [JsVal.str "balances", JsVal.num 7], goodVal v) ∧
      (∀ v ∈ [JsVal.str "games", JsVal.bool true], goodVal v)) ∧
      (jsKeyToString [JsVal.str "balances", JsVal.num 7] =
          jsKeyToString [JsVal.str "games", JsVal.bool true] ↔
        [JsVal.str "balances", JsVal.num 7] = [JsVal.str "games", JsVal.bool true]) :=
  ⟨⟨by decide, by decide⟩,
    keyToString_canonical [JsVal.str "balances", JsVal.num 7]
      [JsVal.str "games", JsVal.bool true] (by decide) (by decide)⟩

theorem mapGet_eq_none {β : Type} (k : String) (l : List (String × β)) :
    mapGet k l = none ↔ ∀ p ∈ l, ¬(p.1 = k) := by
  unfold mapGet
  simp [List.find?_eq_none]

theorem mapGet_mem {β : Type} {k : String} {l : List (String × β)} {v : β}
    (h : mapGet k l = some v) : (k, v) ∈ l := by
  unfold mapGet at h
  cases hf : l.find? (fun p => p.1 = k) with
  | none => rw [hf] at h; cases h
  | some q =>
    rw [hf] at h
    have hm := List.mem_of_find?_eq_some hf
    have hpred := List.find?_some hf
    simp only [Option.map_some', Option.some.injEq] at h
    simp only [decide_eq_true_eq] at hpred
    have hq : q = (k, v) := by
      obtain ⟨q1, q2⟩ := q
      simp_all
    rwa [hq] at hm

theorem invalidatePrefix_entries {α : Type} (s : QueryCache α) (ts : Nat) (pre : QueryKey)
    (evt : Option CacheInvalidationEvent) (str : String) :
    mapGet str (s.invalidatePrefix ts pre evt).entries =
      if ∃ k ∈ s.entries.map (fun p : String × CacheEntry α => p.2.key),
          hasPrefix k pre = true ∧ keyToString k = str
      then Option.map (invalidEntry ts) (mapGet str s.entries)
      else mapGet str s.entries := by
  unfold QueryCache.invalidatePrefix
  exact foldl_guard_invalidate_entries (fun k => hasPrefix k pre) _ s ts evt str

/-- C8: `invalidatePrefix(prefix, event?)` invalidates exactly those stored
keys whose leading segments equal the prefix element-wise; every stored
entry whose key does not extend the prefix is left unchanged, and keys with
no entry stay absent. -/
theorem invalidatePrefix_spec {α : Type} (s : QueryCache α) (ts : Nat) (pre : QueryKey)
    (evt : Option CacheInvalidationEvent)
    (hwf : ∀ p ∈ s.entries, p.1 = keyToString p.2.key) :
    ∀ key : QueryKey,
      (s.get key = none → (s.invalidatePrefix ts pre evt).get key = none) ∧
      ∀ e, s.get key = some e →
        (s.invalidatePrefix ts pre evt).get key =
          some (if hasPrefix key pre then invalidEntry ts e else e) := by
  intro key
  constructor
  · intro hnone
    unfold QueryCache.get at hnone ⊢
    rw [invalidatePrefix_entries]
    rw [if_neg ?_, hnone]
    rintro ⟨k, hk, _, hks⟩
    obtain ⟨p, hp, hpk⟩ := List.mem_map.mp hk
    have h1 := hwf p hp
    rw [hpk] at h1
    rw [mapGet_eq_none] at hnone
    exact hnone p hp (by rw [h1, hks])
  · intro e hsome
    unfold QueryCache.get at hsome ⊢
    rw [invalidatePrefix_entries]
    have hmem : (keyToString key, e) ∈ s.entries := mapGet_mem hsome
    have hkey : e.key = key := keyToString_inj (hwf _ hmem).symm
    by_cases hp : hasPrefix key pre = true
    · rw [if_pos ⟨e.key, List.mem_map.mpr ⟨(keyToString key, e), hmem, rfl⟩,
        by rw [hkey]; exact hp, by rw [hkey]⟩]
      rw [hsome, if_pos hp]
      rfl
    · rw [if_neg ?_, hsome, if_neg hp]
      rintro ⟨k, hk, hkp, hks⟩
      obtain ⟨p, hp', hpk⟩ := List.mem_map.mp hk
      have hkk : k = key := keyToString_inj hks
      rw [hkk] at hkp
      exact hp hkp

/-- Witness for C8 at a concrete input: invalidating the `games` prefix on
a store holding a games entry and a balances entry. -/
theorem invalidatePrefix_spec_witness :
    (∀ p ∈ twoNamespaceCache.entries, p.1 = keyToString p.2.key) ∧
      ∀ key : QueryKey,
        (twoNamespaceCache.get key = none →
          (twoNamespaceCache.invalidatePrefix 9 [.str "games"] none).get key = none) ∧
        ∀ e, twoNamespaceCache.get key = some e →
          (twoNamespaceCache.invalidatePrefix 9 [.str "games"] none).get key =
            some (if hasPrefix key [.str "games"] then invalidEntry 9 e else e) :=
  ⟨by decide, invalidatePrefix_spec twoNamespaceCache 9 [.str "games"] none (by decide)⟩

/-- C1, evaluated at the failing input: `set` on a previously invalidated
entry carries the old `invalidatedAt` forward (the source writes
`invalidatedAt: existing?.meta.invalidatedAt`), so immediately after the
`set` at time 10 the entry still holds `invalidatedAt = 5` and
`isStale` is true, although the claim (and spec) require `set` to clear
`invalidatedAt` and make `isStale` false. -/
theorem set_preserves_invalidation_flag :
    (c1AfterSecondSet.get (QueryKeys.profileByAddress "GAAA")).map
        (fun e => e.data) = some 2 ∧
      (c1AfterSecondSet.get (QueryKeys.profileByAddress "GAAA")).map
        (fun e => e.meta.invalidatedAt) = some (some 5) ∧
      (c1AfterSecondSet.get (QueryKeys.profileByAddress "GAAA")).map
        (fun e => e.meta.staleAt) = some 1010 ∧
      c1AfterSecondSet.isStale 10 (QueryKeys.profileByAddress "GAAA") = true := by
  decide

/-- C2, evaluated at the failing input: the prizePool rule calls
`invalidatePrefix(QueryKeys.balances.root())`, whose prefix is
`["balances", "root"]`, so the stored `balances.account("GOTHER")` key —
which is in the balances namespace (first segment `"balances"`) but does
not extend `["balances", "root"]` — is not invalidated: after `applyRules`
it is still fresh, although the claim (and spec) require the entire
balances namespace to be invalidated by prefix. -/
theorem prizePool_rule_misses_balances_namespace :
    hasPrefix (QueryKeys.balancesAccount "GOTHER") [.str "balances"] = true ∧
      hasPrefix (QueryKeys.balancesAccount "GOTHER") QueryKeys.balancesRoot = false ∧
      (applyRules gotherCache 100 prizePoolInput).get (QueryKeys.balancesAccount "GOTHER") =
        gotherCache.get (QueryKeys.balancesAccount "GOTHER") ∧
      (applyRules gotherCache 100 prizePoolInput).isStale 100
        (QueryKeys.balancesAccount "GOTHER") = false := by
  decide

theorem applyRules_coinFlip_entries {α : Type} (s : QueryCache α) (ts : Nat)
    (input : InvalidationRuleInput) (ctx : ContractTxContext) (g : GameId) (A : List String)
    (hctx : input.event.contractTx = some ctx)
    (hcontract : ctx.contract = "coinFlip")
    (hgid : ctx.gameId = some g)
    (haddr : ctx.addresses = some A)
    (str : String) :
    mapGet str (applyRules s ts input).entries =
      if (∃ a ∈ A, keyToString (QueryKeys.gamesRecentByAddress a) = str) ∨
          keyToString (QueryKeys.gamesById (.s (gidStr g))) = str ∨
          (∃ a ∈ A, keyToString (QueryKeys.balancesAccount a) = str) then
        Option.map (invalidEntry ts) (mapGet str s.entries)
      else mapGet str s.entries := by
  unfold applyRules
  simp only [hctx, hcontract, hgid, haddr]
  have hpp : (("coinFlip" : String) == "prizePool") = false := by decide
  have hcf : (("coinFlip" : String) == "coinFlip") = true := by decide
  have hab : (("coinFlip" : String) == "achievementBadge") = false := by decide
  simp only [hpp, hcf, hab, if_false, if_true, Bool.false_eq_true, ite_false, ite_true]
  unfold invalidateCoinFlip invalidateBalances
  simp only
  rw [foldl_invalidate_entries QueryKeys.gamesRecentByAddress, invalidate_entries,
    foldl_invalidate_entries QueryKeys.balancesAccount]
  by_cases c1 : ∃ a ∈ A, keyToString (QueryKeys.gamesRecentByAddress a) = str <;>
    by_cases c2 : keyToString (QueryKeys.gamesById (.s (gidStr g))) = str <;>
      by_cases c3 : ∃ a ∈ A, keyToString (QueryKeys.balancesAccount a) = str <;>
        simp only [c1, c2, c3, if_pos, if_neg, if_true, if_false, invalidEntry_idem,
          true_or, or_true, false_or, or_false, ite_true, ite_false, not_false_iff,
          or_self, iff_true, iff_false]

/-- C6: for a successful coin-flip contract transaction with gameId `g` and
affected addresses `A`, `applyRules` invalidates `games.byId(String(g))`,
and for every `a ∈ A` both `games.recentByAddress(a)` and
`balances.account(a)` (stored entries get `invalidatedAt = now`, missing
keys stay absent). -/
theorem applyRules_coinFlip_invalidates {α : Type} (s : QueryCache α) (ts : Nat)
    (input : InvalidationRuleInput) (ctx : ContractTxContext) (txh : Option String)
    (g : GameId) (A : List String)
    (_hok : input.outcome = TxOutcome.ok txh)
    (hctx : input.event.contractTx = some ctx)
    (hcontract : ctx.contract = "coinFlip")
    (hgid : ctx.gameId = some g)
    (haddr : ctx.addresses = some A) :
    (applyRules s ts input).get (QueryKeys.gamesById (.s (gidStr g))) =
      Option.map (invalidEntry ts) (s.get (QueryKeys.gamesById (.s (gidStr g)))) ∧
      ∀ a ∈ A,
        (applyRules s ts input).get (QueryKeys.gamesRecentByAddress a) =
          Option.map (invalidEntry ts) (s.get (QueryKeys.gamesRecentByAddress a)) ∧
        (applyRules s ts input).get (QueryKeys.balancesAccount a) =
          Option.map (invalidEntry ts) (s.get (QueryKeys.balancesAccount a)) := by
  refine ⟨?_, fun a ha => ⟨?_, ?_⟩⟩
  · unfold QueryCache.get
    rw [applyRules_coinFlip_entries s ts input ctx g A hctx hcontract hgid haddr,
      if_pos (Or.inr (Or.inl rfl))]
  · unfold QueryCache.get
    rw [applyRules_coinFlip_entries s ts input ctx g A hctx hcontract hgid haddr,
      if_pos (Or.inl ⟨a, ha, rfl⟩)]
  · unfold QueryCache.get
    rw [applyRules_coinFlip_entries s ts input ctx g A hctx hcontract hgid haddr,
      if_pos (Or.inr (Or.inr ⟨a, ha, rfl⟩))]

/-- Witness for C6 at a concrete input. -/
theorem applyRules_coinFlip_invalidates_witness :
    (coinFlipInput.outcome = TxOutcome.ok (some "abc") ∧
      coinFlipInput.event.contractTx =
        some ⟨"coinFlip", "play", none, some ["GADDR"], some (.s "7")⟩ ∧
      ("coinFlip" : String) = "coinFlip" ∧
      (some (GameId.s "7") : Option GameId) = some (.s "7") ∧
      (some ["GADDR"] : Option (List String)) = some ["GADDR"]) ∧
      ((applyRules twoNamespaceCache 3 coinFlipInput).get
          (QueryKeys.gamesById (.s (gidStr (.s "7")))) =
        Option.map (invalidEntry 3)
          (twoNamespaceCache.get (QueryKeys.gamesById (.s (gidStr (.s "7"))))) ∧
        ∀ a ∈ ["GADDR"],
          (applyRules twoNamespaceCache 3 coinFlipInput).get
              (QueryKeys.gamesRecentByAddress a) =
            Option.map (invalidEntry 3)
              (twoNamespaceCache.get (QueryKeys.gamesRecentByAddress a)) ∧
          (applyRules twoNamespaceCache 3 coinFlipInput).get (QueryKeys.balancesAccount a) =
            Option.map (invalidEntry 3)
              (twoNamespaceCache.get (QueryKeys.balancesAccount a))) :=
  ⟨⟨rfl, rfl, rfl, rfl, rfl⟩,
    applyRules_coinFlip_invalidates twoNamespaceCache 3 coinFlipInput
      ⟨"coinFlip", "play", none, some ["GADDR"], some (.s "7")⟩ (some "abc") (.s "7") ["GADDR"]
      rfl rfl rfl rfl rfl⟩

theorem runSets_append {α : Type} (l1 l2 : List (Nat × QueryKey × α)) :
    ∀ s : QueryCache α, runSets s (l1 ++ l2) = runSets (runSets s l1) l2 := by
  induction l1 with
  | nil => intro s; rfl
  | cons op l1 ih =>
    intro s
    obtain ⟨t, k, d⟩ := op
    show runSets (s.set t k d none).1 (l1 ++ l2) =
      runSets (runSets (s.set t k d none).1 l1) l2
    rw [ih]

theorem lastWrite_append_single {α : Type} (past : List (Nat × QueryKey × α)) (t : Nat)
    (k : QueryKey) (d : α) :
    ∀ str : String,
      lastWrite str (past ++ [(t, k, d)]) =
        if keyToString k = str then some t else lastWrite str past := by
  induction past with
  | nil =>
    intro str
    simp [lastWrite]
  | cons op past ih =>
    intro str
    obtain ⟨t0, k0, d0⟩ := op
    show (match lastWrite str (past ++ [(t, k, d)]) with
      | some u => some u
      | none => if keyToString k0 = str then some t0 else none) =
      if keyToString k = str then some t else lastWrite str ((t0, k0, d0) :: past)
    rw [ih]
    by_cases h : keyToString k = str
    · rw [if_pos h, if_pos h]
    · rw [if_neg h, if_neg h]
      rfl

theorem lastWrite_mem_time {α : Type} (l : List (Nat × QueryKey × α)) :
    ∀ (str : String) (u : Nat), lastWrite str l = some u → u ∈ l.map (fun o => o.1) := by
  induction l with
  | nil => intro str u h; cases h
  | cons op l ih =>
    intro str u h
    obtain ⟨t, k, d⟩ := op
    simp only [lastWrite] at h
    cases hw : lastWrite str l with
    | some v =>
      rw [hw] at h
      cases h
      exact List.mem_cons_of_mem _ (ih str u hw)
    | none =>
      rw [hw] at h
      by_cases hk : keyToString k = str
      · rw [if_pos hk] at h
        cases h
        exact List.mem_cons_self _ _
      · rw [if_neg hk] at h
        cases h

theorem lastWrite_isSome_iff {α : Type} (l : List (Nat × QueryKey × α)) :
    ∀ str : String,
      (lastWrite str l).isSome = true ↔ str ∈ l.map (fun o => keyToString o.2.1) := by
  induction l with
  | nil => intro str; simp [lastWrite]
  | cons op l ih =>
    intro str
    obtain ⟨t, k, d⟩ := op
    simp only [lastWrite, List.map_cons, List.mem_cons]
    cases hw : lastWrite str l with
    | some v =>
      simp only [Option.isSome_some, true_iff]
      exact Or.inr ((ih str).mp (by rw [hw]; rfl))
    | none =>
      by_cases hk : keyToString k = str
      · rw [if_pos hk]
        simp only [Option.isSome_some, true_iff]
        exact Or.inl hk.symm
      · rw [if_neg hk]
        constructor
        · intro h
          exact absurd h (by simp)
        · rintro (h | h)
          · exact absurd h.symm hk
          · have hmem := (ih str).mpr h
            rw [hw] at hmem
            exact absurd hmem (by simp)


theorem distinctCount_append_single (l : List String) (x : String) :
    distinctCount (l ++ [x]) = distinctCount l + (if x ∈ l then 0 else 1) := by
  induction l with
  | nil => simp [distinctCount]
  | cons y l ih =>
    show distinctCount (l ++ [x]) + (if y ∈ l ++ [x] then 0 else 1) =
      (distinctCount l + if y ∈ l then 0 else 1) + (if x ∈ y :: l then 0 else 1)
    rw [ih]
    by_cases hxy : x = y
    · subst hxy
      rw [if_pos (show x ∈ l ++ [x] by simp), if_pos (show x ∈ x :: l by simp)]
    · have h1 : (y ∈ l ++ [x]) ↔ y ∈ l := by
        constructor
        · intro h
          rcases List.mem_append.mp h with h | h
          · exact h
          · simp at h
            exact absurd h.symm hxy
        · intro h
          exact List.mem_append.mpr (Or.inl h)
      have h2 : (x ∈ y :: l) ↔ x ∈ l := by
        constructor
        · intro h
          rcases List.mem_cons.mp h with h | h
          · exact absurd h hxy
          · exact h
        · intro h
          exact List.mem_cons_of_mem y h
      by_cases hy : y ∈ l
      · by_cases hx : x ∈ l
        · rw [if_pos (h1.mpr hy), if_pos hy, if_pos hx, if_pos (h2.mpr hx)]
        · rw [if_pos (h1.mpr hy), if_pos hy, if_neg hx, if_neg (fun h => hx (h2.mp h))]
      · by_cases hx : x ∈ l
        · rw [if_neg (fun h => hy (h1.mp h)), if_neg hy, if_pos hx, if_pos (h2.mpr hx)]
          try omega
        · rw [if_neg (fun h => hy (h1.mp h)), if_neg hy, if_neg hx,
            if_neg (fun h => hx (h2.mp h))]
          try omega

theorem distinctCount_eq_card (l : List String) : distinctCount l = l.toFinset.card := by
  induction l with
  | nil => simp [distinctCount]
  | cons x l ih =>
    simp only [distinctCount, List.toFinset_cons, ih]
    by_cases hx : x ∈ l
    · rw [if_pos hx, Finset.insert_eq_self.mpr (List.mem_toFinset.mpr hx)]
      omega
    · rw [if_neg hx, Finset.card_insert_of_not_mem (fun h => hx (List.mem_toFinset.mp h))]

theorem mapSet_absent {β : Type} {k : String} {l : List (String × β)}
    (h : mapGet k l = none) (v : β) : mapSet k v l = l ++ [(k, v)] := by
  induction l with
  | nil => rfl
  | cons p l ih =>
    obtain ⟨k1, v1⟩ := p
    rw [mapGet_cons] at h
    by_cases hk : k1 = k
    · rw [if_pos hk] at h
      cases h
    · rw [if_neg hk] at h
      unfold mapSet
      rw [if_neg hk, ih h, List.cons_append]

theorem mapSet_present {β : Type} {k : String} {l : List (String × β)} {w : β}
    (h : mapGet k l = some w) (v : β) :
    ∃ l1 l2, l = l1 ++ (k, w) :: l2 ∧ (∀ p ∈ l1, ¬(p.1 = k)) ∧
      mapSet k v l = l1 ++ (k, v) :: l2 := by
  induction l with
  | nil => cases h
  | cons p l ih =>
    obtain ⟨k1, v1⟩ := p
    rw [mapGet_cons] at h
    by_cases hk : k1 = k
    · rw [if_pos hk] at h
      injection h with h
      subst hk h
      refine ⟨[], l, by simp, by simp, ?_⟩
      unfold mapSet
      rw [if_pos rfl]
      simp
    · rw [if_neg hk] at h
      obtain ⟨l1, l2, he, hne, hs⟩ := ih h
      refine ⟨(k1, v1) :: l1, l2, by rw [he, List.cons_append], ?_, ?_⟩
      · intro p hp
        rcases List.mem_cons.mp hp with h | h
        · rw [h]
          exact hk
        · exact hne p h
      · unfold mapSet
        rw [if_neg hk, hs, List.cons_append]

theorem insUpd_perm {α : Type} (e : CacheEntry α) (l : List (CacheEntry α)) :
    (insUpd e l).Perm (e :: l) := by
  induction l with
  | nil => exact List.Perm.refl _
  | cons x xs ih =>
    unfold insUpd
    by_cases h : x.meta.updatedAt < e.meta.updatedAt
    · rw [if_pos h]
      exact (List.Perm.cons x ih).trans (List.Perm.swap e x xs)
    · rw [if_neg h]

theorem insUpd_sorted {α : Type} (e : CacheEntry α) (l : List (CacheEntry α))
    (h : l.Pairwise (fun a b => a.meta.updatedAt ≤ b.meta.updatedAt)) :
    (insUpd e l).Pairwise (fun a b => a.meta.updatedAt ≤ b.meta.updatedAt) := by
  induction l with
  | nil => simp [insUpd]
  | cons x xs ih =>
    rw [List.pairwise_cons] at h
    obtain ⟨hx, hxs⟩ := h
    unfold insUpd
    by_cases hlt : x.meta.updatedAt < e.meta.updatedAt
    · rw [if_pos hlt]
      rw [List.pairwise_cons]
      refine ⟨?_, ih hxs⟩
      intro y hy
      have hy' : y ∈ e :: xs := (insUpd_perm e xs).mem_iff.mp hy
      rcases List.mem_cons.mp hy' with h | h
      · rw [h]
        omega
      · exact hx y h
    · rw [if_neg hlt]
      rw [List.pairwise_cons]
      refine ⟨?_, by rw [List.pairwise_cons]; exact ⟨hx, hxs⟩⟩
      intro y hy
      rcases List.mem_cons.mp hy with h | h
      · rw [h]
        omega
      · have := hx y h
        omega

theorem sortByUpdatedAt_perm {α : Type} (l : List (CacheEntry α)) :
    (sortByUpdatedAt l).Perm l := by
  induction l with
  | nil => exact List.Perm.refl _
  | cons x xs ih =>
    show (insUpd x (sortByUpdatedAt xs)).Perm (x :: xs)
    exact (insUpd_perm x _).trans (List.Perm.cons x ih)

theorem sortByUpdatedAt_sorted {α : Type} (l : List (CacheEntry α)) :
    (sortByUpdatedAt l).Pairwise (fun a b => a.meta.updatedAt ≤ b.meta.updatedAt) := by
  induction l with
  | nil => simp [sortByUpdatedAt]
  | cons x xs ih => exact insUpd_sorted x _ ih

theorem filter_remove_one {β : Type} {l : List (String × β)} {p0 : String × β}
    (hnd : (l.map Prod.fst).Nodup) (hmem : p0 ∈ l) :
    (l.filter (fun q => ¬(q.1 = p0.1))).length = l.length - 1 := by
  obtain ⟨l1, l2, rfl⟩ := List.append_of_mem hmem
  rw [List.map_append, List.map_cons, List.nodup_append] at hnd
  obtain ⟨hnd1, hnd2, hdisj⟩ := hnd
  have h1 : ∀ q ∈ l1, ¬(q.1 = p0.1) := by
    intro q hq he
    exact hdisj (List.mem_map.mpr ⟨q, hq, rfl⟩) (by rw [he]; exact List.mem_cons_self _ _)
  have h2 : ∀ q ∈ l2, ¬(q.1 = p0.1) := by
    rw [List.nodup_cons] at hnd2
    intro q hq he
    exact hnd2.1 (by rw [← he]; exact List.mem_map.mpr ⟨q, hq, rfl⟩)
  rw [List.filter_append, List.filter_cons]
  rw [if_neg (by simp)]
  rw [List.filter_eq_self.mpr (fun a ha => by simp [h1 a ha]),
    List.filter_eq_self.mpr (fun a ha => by simp [h2 a ha])]
  simp only [List.length_append, List.length_cons]
  omega

theorem mem_filter_ne {β : Type} (l : List (String × β)) (str : String) (q : String × β) :
    q ∈ l.filter (fun q => ¬(q.1 = str)) ↔ (q ∈ l ∧ ¬(q.1 = str)) := by
  simp [List.mem_filter]

theorem foldl_delete_maxEntries {α : Type} (l : List (CacheEntry α)) :
    ∀ s : QueryCache α,
      ((l.foldl (fun st e => { st with entries := mapDelete (keyToString e.key) st.entries })
        s)).maxEntries = s.maxEntries := by
  induction l with
  | nil => intro s; rfl
  | cons x xs ih => intro s; rw [List.foldl_cons, ih]

theorem enforce_maxEntries {α : Type} (s : QueryCache α) :
    (enforceMaxEntries s).maxEntries = s.maxEntries := by
  unfold enforceMaxEntries
  cases hm : s.maxEntries with
  | none => exact hm
  | some m =>
    show (enforceAux m s).maxEntries = some m
    unfold enforceAux
    split_ifs
    · exact hm
    · exact hm
    · rw [foldl_delete_maxEntries]
      exact hm

theorem set_maxEntries {α : Type} (s : QueryCache α) (ts : Nat) (k : QueryKey) (d : α)
    (pol : Option QueryPolicy) : (s.set ts k d pol).1.maxEntries = s.maxEntries := by
  unfold QueryCache.set
  simp only
  rw [enforce_maxEntries]

theorem runSets_maxEntries {α : Type} (ops : List (Nat × QueryKey × α)) :
    ∀ s : QueryCache α, (runSets s ops).maxEntries = s.maxEntries := by
  induction ops with
  | nil => intro s; rfl
  | cons op ops ih =>
    intro s
    obtain ⟨t, k, d⟩ := op
    show (runSets (s.set t k d none).1 ops).maxEntries = s.maxEntries
    rw [ih, set_maxEntries]

theorem enforce_noop {α : Type} (s : QueryCache α) (N : Nat) (hm : s.maxEntries = some N)
    (hle : s.entries.length ≤ N) : enforceMaxEntries s = s := by
  unfold enforceMaxEntries
  rw [hm]
  show enforceAux N s = s
  unfold enforceAux
  by_cases h0 : N = 0
  · rw [if_pos h0]
  · rw [if_neg h0, if_pos hle]

theorem insUpd_filter {α : Type} (e : CacheEntry α) (l : List (CacheEntry α)) (tt : Nat) :
    (insUpd e l).filter (fun x => x.meta.updatedAt = tt) =
      if e.meta.updatedAt = tt then e :: l.filter (fun x => x.meta.updatedAt = tt)
      else l.filter (fun x => x.meta.updatedAt = tt) := by
  induction l with
  | nil =>
    show [e].filter _ = _
    by_cases h : e.meta.updatedAt = tt
    · rw [if_pos h, List.filter_cons_of_pos (by simp [h])]
    · rw [if_neg h, List.filter_cons_of_neg (by simp [h])]
  | cons x xs ih =>
    unfold insUpd
    by_cases hlt : x.meta.updatedAt < e.meta.updatedAt
    · rw [if_pos hlt]
      by_cases he : e.meta.updatedAt = tt
      · rw [if_pos he]
        have hx : ¬(x.meta.updatedAt = tt) := by omega
        rw [List.filter_cons_of_neg (by simp [hx]),
          List.filter_cons_of_neg (by simp [hx]), ih, if_pos he]
      · rw [if_neg he]
        by_cases hx : x.meta.updatedAt = tt
        · rw [List.filter_cons_of_pos (by simp [hx]),
            List.filter_cons_of_pos (by simp [hx]), ih, if_neg he]
        · rw [List.filter_cons_of_neg (by simp [hx]),
            List.filter_cons_of_neg (by simp [hx]), ih, if_neg he]
    · rw [if_neg hlt]
      by_cases he : e.meta.updatedAt = tt
      · rw [if_pos he, List.filter_cons_of_pos (by simp [he])]
      · rw [if_neg he, List.filter_cons_of_neg (by simp [he])]

theorem sortByUpdatedAt_stable {α : Type} (l : List (CacheEntry α)) (tt : Nat) :
    (sortByUpdatedAt l).filter (fun x => x.meta.updatedAt = tt) =
      l.filter (fun x => x.meta.updatedAt = tt) := by
  induction l with
  | nil => rfl
  | cons x xs ih =>
    show (insUpd x (sortByUpdatedAt xs)).filter _ = _
    rw [insUpd_filter]
    by_cases h : x.meta.updatedAt = tt
    · rw [if_pos h, ih, List.filter_cons_of_pos (by simp [h])]
    · rw [if_neg h, ih, List.filter_cons_of_neg (by simp [h])]

theorem sorted_filter_unique {α : Type} (l1 : List (CacheEntry α)) :
    ∀ l2 : List (CacheEntry α),
      l1.Pairwise (fun a b => a.meta.updatedAt ≤ b.meta.updatedAt) →
      l2.Pairwise (fun a b => a.meta.updatedAt ≤ b.meta.updatedAt) →
      (∀ tt, l1.filter (fun x => x.meta.updatedAt = tt) =
        l2.filter (fun x => x.meta.updatedAt = tt)) →
      l1 = l2 := by
  induction l1 with
  | nil =>
    intro l2 _ _ hf
    cases l2 with
    | nil => rfl
    | cons b l2 =>
      exfalso
      have h := hf b.meta.updatedAt
      rw [List.filter_nil, List.filter_cons_of_pos (by simp)] at h
      cases h
  | cons a l1 ih =>
    intro l2 h1 h2 hf
    cases l2 with
    | nil =>
      exfalso
      have h := hf a.meta.updatedAt
      rw [List.filter_nil, List.filter_cons_of_pos (by simp)] at h
      cases h
    | cons b l2 =>
      have hamem : a ∈ b :: l2 := by
        have h := hf a.meta.updatedAt
        have ha : a ∈ (a :: l1).filter (fun x => x.meta.updatedAt = a.meta.updatedAt) := by
          rw [List.filter_cons_of_pos (by simp)]
          exact List.mem_cons_self _ _
        rw [h] at ha
        exact List.mem_of_mem_filter ha
      have hbmem : b ∈ a :: l1 := by
        have h := hf b.meta.updatedAt
        have hb : b ∈ (b :: l2).filter (fun x => x.meta.updatedAt = b.meta.updatedAt) := by
          rw [List.filter_cons_of_pos (by simp)]
          exact List.mem_cons_self _ _
        rw [← h] at hb
        exact List.mem_of_mem_filter hb
      have hab : a.meta.updatedAt = b.meta.updatedAt := by
        have hba : b.meta.updatedAt ≤ a.meta.updatedAt := by
          rcases List.mem_cons.mp hamem with h | h
          · exact le_of_eq (by rw [h])
          · exact (List.pairwise_cons.mp h2).1 a h
        have hab2 : a.meta.updatedAt ≤ b.meta.updatedAt := by
          rcases List.mem_cons.mp hbmem with h | h
          · exact le_of_eq (by rw [h])
          · exact (List.pairwise_cons.mp h1).1 b h
        omega
      have haeqb : a = b := by
        have h := hf a.meta.updatedAt
        rw [List.filter_cons_of_pos (by simp),
          List.filter_cons_of_pos (by simp [hab]), List.cons.injEq] at h
        exact h.1
      cases haeqb
      have htail : ∀ tt, l1.filter (fun x => x.meta.updatedAt = tt) =
          l2.filter (fun x => x.meta.updatedAt = tt) := by
        intro tt
        have h := hf tt
        by_cases htt : a.meta.updatedAt = tt
        · rw [List.filter_cons_of_pos (by simp [htt]),
            List.filter_cons_of_pos (by simp [htt]), List.cons.injEq] at h
          exact h.2
        · rw [List.filter_cons_of_neg (by simp [htt]),
            List.filter_cons_of_neg (by simp [htt])] at h
          exact h
      rw [ih l2 (List.pairwise_cons.mp h1).2 (List.pairwise_cons.mp h2).2 htail]

theorem filter_eq_cons_split {β : Type} (l : List β) (p : β → Bool) :
    ∀ b l', l.filter p = b :: l' →
      ∃ l1 l2, l = l1 ++ b :: l2 ∧ (∀ x ∈ l1, p x = false) ∧ l2.filter p = l' := by
  induction l with
  | nil => intro b l' h; cases h
  | cons x xs ih =>
    intro b l' h
    by_cases hp : p x = true
    · rw [List.filter_cons_of_pos hp] at h
      injection h with h1 h2
      refine ⟨[], xs, by simp [h1], by simp, h2⟩
    · rw [List.filter_cons_of_neg hp] at h
      obtain ⟨l1, l2, he, hno, hfl⟩ := ih b l' h
      refine ⟨x :: l1, l2, by rw [he, List.cons_append], ?_, hfl⟩
      intro y hy
      rcases List.mem_cons.mp hy with h2 | h2
      · rw [h2]
        cases hpx : p x with
        | false => rfl
        | true => exact absurd hpx hp
      · exact hno y h2

theorem map_snd_split {α : Type} (l : List (String × CacheEntry α)) :
    ∀ (v1 : List (CacheEntry α)) (h : CacheEntry α) (v2 : List (CacheEntry α)),
      l.map (fun p => p.2) = v1 ++ h :: v2 →
      ∃ l1 q l2, l = l1 ++ q :: l2 ∧ l1.map (fun p => p.2) = v1 ∧ q.2 = h ∧
        l2.map (fun p => p.2) = v2 := by
  induction l with
  | nil =>
    intro v1 h v2 he
    cases v1 with
    | nil => exact absurd he (by simp)
    | cons a v1 => exact absurd he (by simp)
  | cons x xs ih =>
    intro v1 h v2 he
    cases v1 with
    | nil =>
      simp only [List.map_cons, List.nil_append] at he
      injection he with h1 h2
      exact ⟨[], x, xs, rfl, rfl, h1, h2⟩
    | cons a v1 =>
      simp only [List.map_cons, List.cons_append] at he
      injection he with h1 h2
      obtain ⟨l1, q, l2, hl, hm1, hq, hm2⟩ := ih v1 h v2 h2
      refine ⟨x :: l1, q, l2, by rw [hl, List.cons_append], ?_, hq, hm2⟩
      simp only [List.map_cons, hm1, h1]

theorem foldl_mapDelete {α : Type} (vs : List (CacheEntry α)) :
    ∀ s0 : QueryCache α,
      vs.foldl (fun st e => { st with entries := mapDelete (keyToString e.key) st.entries })
        s0 =
        { s0 with entries := s0.entries.filter (fun p => ¬(p.1 ∈ vs.map (fun e => keyToString e.key))) } := by
  induction vs with
  | nil =>
    intro s0
    show s0 = _
    have h : s0.entries.filter
        (fun p => ¬(p.1 ∈ ([] : List (CacheEntry α)).map (fun e => keyToString e.key))) =
        s0.entries :=
      List.filter_eq_self.mpr (fun a _ => by simp)
    rw [h]
  | cons v vs ih =>
    intro s0
    rw [List.foldl_cons, ih]
    have hent : (mapDelete (keyToString v.key) s0.entries).filter
        (fun p => ¬(p.1 ∈ vs.map (fun e => keyToString e.key))) =
        s0.entries.filter
          (fun p => ¬(p.1 ∈ (v :: vs).map (fun e => keyToString e.key))) := by
      unfold mapDelete
      rw [List.filter_filter]
      apply List.filter_congr
      intro a _
      simp only [List.map_cons, List.mem_cons, decide_not, Bool.decide_or]
      cases h1 : decide (a.1 = keyToString v.key) <;>
        cases h2 : decide (a.1 ∈ vs.map (fun e => keyToString e.key)) <;> rfl
    exact congrArg (fun en => { s0 with entries := en }) hent

theorem enforce_stable_prefix {α : Type} (s : QueryCache α) (N : Nat)
    (hm : s.maxEntries = some N) (hN : 1 ≤ N) (hgt : N < s.entries.length)
    (l : List (CacheEntry α))
    (hsort : l.Pairwise (fun a b => a.meta.updatedAt ≤ b.meta.updatedAt))
    (hstable : ∀ tt, l.filter (fun x => x.meta.updatedAt = tt) =
      (s.entries.map (fun p => p.2)).filter (fun x => x.meta.updatedAt = tt)) :
    enforceMaxEntries s =
      { s with entries :=
          s.entries.filter (fun p => ¬(p.1 ∈ (l.take (s.entries.length - N)).map
            (fun e => keyToString e.key))) } := by
  have hleq : l = sortByUpdatedAt (s.entries.map (fun p => p.2)) := by
    apply sorted_filter_unique l _ hsort (sortByUpdatedAt_sorted _)
    intro tt
    rw [hstable tt, sortByUpdatedAt_stable]
  have haux : enforceMaxEntries s = enforceAux N s := by
    unfold enforceMaxEntries
    rw [hm]
  rw [haux]
  unfold enforceAux
  rw [if_neg (by omega), if_neg (by omega), ← hleq, foldl_mapDelete]

theorem enforce_evict_first {α : Type} (s : QueryCache α) (N : Nat)
    (hm : s.maxEntries = some N) (hN : 1 ≤ N) (hlen : s.entries.length = N + 1)
    (hwf : ∀ p ∈ s.entries, p.1 = keyToString p.2.key) :
    ∃ l1 p0 l2, s.entries = l1 ++ p0 :: l2 ∧
      (∀ q ∈ l1, p0.2.meta.updatedAt < q.2.meta.updatedAt) ∧
      (∀ q ∈ l2, p0.2.meta.updatedAt ≤ q.2.meta.updatedAt) ∧
      enforceMaxEntries s =
        { s with entries := s.entries.filter (fun q => ¬(q.1 = p0.1)) } := by
  have hperm := sortByUpdatedAt_perm (s.entries.map (fun p => p.2))
  have hsorted := sortByUpdatedAt_sorted (s.entries.map (fun p => p.2))
  cases hs : sortByUpdatedAt (s.entries.map (fun p => p.2)) with
  | nil =>
    exfalso
    have hl := hperm.length_eq
    rw [hs] at hl
    simp at hl
    omega
  | cons h0 rest =>
    rw [hs] at hperm hsorted
    have hmin : ∀ v ∈ s.entries.map (fun p => p.2),
        h0.meta.updatedAt ≤ v.meta.updatedAt := by
      intro v hv
      have hv2 : v ∈ h0 :: rest := hperm.mem_iff.mpr hv
      rcases List.mem_cons.mp hv2 with h | h
      · exact le_of_eq (by rw [h])
      · exact (List.pairwise_cons.mp hsorted).1 v h
    have hfil : (s.entries.map (fun p => p.2)).filter
        (fun x => x.meta.updatedAt = h0.meta.updatedAt) =
        h0 :: rest.filter (fun x => x.meta.updatedAt = h0.meta.updatedAt) := by
      rw [← sortByUpdatedAt_stable (s.entries.map (fun p => p.2)) h0.meta.updatedAt, hs,
        List.filter_cons_of_pos (by simp)]
    obtain ⟨v1, v2, hvsplit, hv1no, _⟩ :=
      filter_eq_cons_split (s.entries.map (fun p => p.2)) _ h0 _ hfil
    obtain ⟨l1, p0, l2, hlsplit, hm1, hp0h, hm2⟩ :=
      map_snd_split s.entries v1 h0 v2 hvsplit
    have hp0mem : p0 ∈ s.entries := by
      rw [hlsplit]
      exact List.mem_append.mpr (Or.inr (List.mem_cons_self _ _))
    refine ⟨l1, p0, l2, hlsplit, ?_, ?_, ?_⟩
    · intro q hq
      have hq2 : q.2 ∈ v1 := by
        rw [← hm1]
        exact List.mem_map.mpr ⟨q, hq, rfl⟩
      have hno := hv1no q.2 hq2
      have hqmem : q.2 ∈ s.entries.map (fun p => p.2) := by
        rw [hvsplit]
        exact List.mem_append.mpr (Or.inl hq2)
      have hge := hmin q.2 hqmem
      rw [hp0h]
      have hne : ¬(q.2.meta.updatedAt = h0.meta.updatedAt) := by
        intro he
        rw [he] at hno
        simp at hno
      omega
    · intro q hq
      have hq2 : q.2 ∈ v2 := by
        rw [← hm2]
        exact List.mem_map.mpr ⟨q, hq, rfl⟩
      have hqmem : q.2 ∈ s.entries.map (fun p => p.2) := by
        rw [hvsplit]
        exact List.mem_append.mpr (Or.inr (List.mem_cons_of_mem _ hq2))
      rw [hp0h]
      exact hmin q.2 hqmem
    · have henf := enforce_stable_prefix s N hm hN (by omega) (h0 :: rest)
        hsorted (fun tt => by rw [← hs, sortByUpdatedAt_stable])
      rw [henf, hlen]
      have htake : (h0 :: rest).take (N + 1 - N) = [h0] := by
        have h1 : N + 1 - N = 1 := by omega
        rw [h1]
        rfl
      rw [htake]
      refine congrArg (fun en => { s with entries := en }) ?_
      apply List.filter_congr
      intro q _
      have hq1 : p0.1 = keyToString h0.key := by
        rw [hwf p0 hp0mem, hp0h]
      simp [hq1]

theorem evictInv_step {α : Type} (N : Nat) (hN : 1 ≤ N)
    (past : List (Nat × QueryKey × α)) (t : Nat) (k : QueryKey) (d : α) (s : QueryCache α)
    (hmax : s.maxEntries = some N)
    (hmono : ∀ o ∈ past, o.1 ≤ t)
    (hinv : EvictInv past s N) :
    EvictInv (past ++ [(t, k, d)]) ((s.set t k d none).1) N := by
  obtain ⟨hnd, hwf, hA, hB, hC⟩ := hinv
  have hle_all : ∀ p ∈ s.entries, p.2.meta.updatedAt ≤ t := by
    intro p hp
    obtain ⟨o, ho, hoe⟩ :=
      List.mem_map.mp (lastWrite_mem_time past p.1 p.2.meta.updatedAt (hA p hp))
    rw [← hoe]
    exact hmono o ho
  obtain ⟨E, hEdef⟩ : ∃ E, (s.set t k d none).2 = E := ⟨_, rfl⟩
  have hset : (s.set t k d none).1 =
      enforceMaxEntries
        { s with
          entries := mapSet (keyToString k) ((s.set t k d none).2) s.entries } :=
    rfl
  rw [hEdef] at hset
  have hEkey0 : ((s.set t k d none).2).key = k := rfl
  have hEupd0 : ((s.set t k d none).2).meta.updatedAt = t := rfl
  have hEkey : E.key = k := hEdef ▸ hEkey0
  have hEupd : E.meta.updatedAt = t := hEdef ▸ hEupd0
  have hmap1 : ((past ++ [(t, k, d)]).map (fun o => keyToString o.2.1)) =
      past.map (fun o => keyToString o.2.1) ++ [keyToString k] := by simp
  unfold EvictInv
  rw [hset]
  cases hex : mapGet (keyToString k) s.entries with
  | some e0 =>
    obtain ⟨l1, l2, hsplit, hne1, hms⟩ := mapSet_present hex E
    rw [hms]
    have hlen_eq : (l1 ++ (keyToString k, E) :: l2).length = s.entries.length := by
      rw [hsplit]
      simp
    have henf : enforceMaxEntries { s with entries := l1 ++ (keyToString k, E) :: l2 } =
        { s with entries := l1 ++ (keyToString k, E) :: l2 } :=
      enforce_noop _ N hmax
        (show (l1 ++ (keyToString k, E) :: l2).length ≤ N by
          rw [hlen_eq, hB]; exact Nat.min_le_right _ _)
    rw [henf]
    have hstr_eq : (l1 ++ (keyToString k, E) :: l2).map Prod.fst = s.entries.map Prod.fst := by
      rw [hsplit]
      simp
    have hmem_char : ∀ p : String × CacheEntry α, p ∈ l1 ++ (keyToString k, E) :: l2 ↔
        (p ∈ l1 ∨ p = (keyToString k, E) ∨ p ∈ l2) := by
      intro p
      simp [List.mem_append, List.mem_cons]
    have hold_mem : ∀ p : String × CacheEntry α, p ∈ l1 ∨ p ∈ l2 → p ∈ s.entries := by
      intro p hp
      rw [hsplit]
      rcases hp with h | h
      · exact List.mem_append.mpr (Or.inl h)
      · exact List.mem_append.mpr (Or.inr (List.mem_cons_of_mem _ h))
    have hnd2 := hnd
    rw [hsplit, List.map_append, List.map_cons, List.nodup_append, List.nodup_cons] at hnd2
    have hl2_ne : ∀ p ∈ l2, ¬(p.1 = keyToString k) := by
      intro p hp he
      exact hnd2.2.1.1 (by rw [← he]; exact List.mem_map.mpr ⟨p, hp, rfl⟩)
    have htouched : keyToString k ∈ past.map (fun o => keyToString o.2.1) := by
      have hmem0 := mapGet_mem hex
      have h1 := hA _ hmem0
      exact (lastWrite_isSome_iff past _).mp (by rw [h1]; rfl)
    refine ⟨?_, ?_, ?_, ?_, ?_⟩
    · show ((l1 ++ (keyToString k, E) :: l2).map Prod.fst).Nodup
      rw [hstr_eq]
      exact hnd
    · intro p hp
      rcases (hmem_char p).mp hp with h | h | h
      · exact hwf p (hold_mem p (Or.inl h))
      · rw [h]
        show keyToString k = keyToString E.key
        rw [hEkey]
      · exact hwf p (hold_mem p (Or.inr h))
    · intro p hp
      rw [lastWrite_append_single]
      rcases (hmem_char p).mp hp with h | h | h
      · rw [if_neg (show ¬(keyToString k = p.1) from fun he => hne1 p h he.symm)]
        exact hA p (hold_mem p (Or.inl h))
      · rw [h, if_pos rfl]
        show some t = some E.meta.updatedAt
        rw [hEupd]
      · rw [if_neg (show ¬(keyToString k = p.1) from fun he => hl2_ne p h he.symm)]
        exact hA p (hold_mem p (Or.inr h))
    · show (l1 ++ (keyToString k, E) :: l2).length = _
      rw [hmap1, distinctCount_append_single, if_pos htouched, hlen_eq, hB, Nat.add_zero]
    · intro p hp str2 u hstr2 hlw
      have hstr2a : str2 ∉ s.entries.map Prod.fst := by
        rw [← hstr_eq]
        exact hstr2
      have hkstr : keyToString k ∈ (l1 ++ (keyToString k, E) :: l2).map Prod.fst := by simp
      have hne_k : ¬(keyToString k = str2) := fun he => hstr2 (he ▸ hkstr)
      rw [lastWrite_append_single, if_neg hne_k] at hlw
      rcases (hmem_char p).mp hp with h | h | h
      · exact hC p (hold_mem p (Or.inl h)) str2 u hstr2a hlw
      · rw [h]
        show u ≤ E.meta.updatedAt
        rw [hEupd]
        obtain ⟨o, ho, hoe⟩ := List.mem_map.mp (lastWrite_mem_time past str2 u hlw)
        rw [← hoe]
        exact hmono o ho
      · exact hC p (hold_mem p (Or.inr h)) str2 u hstr2a hlw
  | none =>
    have hms := mapSet_absent hex E
    rw [hms]
    have hstr_notin : keyToString k ∉ s.entries.map Prod.fst := by
      intro hmem
      obtain ⟨p, hp, hpe⟩ := List.mem_map.mp hmem
      exact (mapGet_eq_none _ _).mp hex p hp hpe
    have hmapmid : (s.entries ++ [(keyToString k, E)]).map Prod.fst =
        s.entries.map Prod.fst ++ [keyToString k] := by simp
    have hnd_mid : ((s.entries ++ [(keyToString k, E)]).map Prod.fst).Nodup := by
      rw [hmapmid, List.nodup_append]
      refine ⟨hnd, List.nodup_singleton _, ?_⟩
      intro a ha hb
      simp at hb
      rw [hb] at ha
      exact hstr_notin ha
    have hwf_mid : ∀ p ∈ s.entries ++ [(keyToString k, E)], p.1 = keyToString p.2.key := by
      intro p hp
      rcases List.mem_append.mp hp with h | h
      · exact hwf p h
      · simp at h
        rw [h]
        show keyToString k = keyToString E.key
        rw [hEkey]
    have hA_mid : ∀ p ∈ s.entries ++ [(keyToString k, E)],
        lastWrite p.1 (past ++ [(t, k, d)]) = some p.2.meta.updatedAt := by
      intro p hp
      rw [lastWrite_append_single]
      rcases List.mem_append.mp hp with h | h
      · rw [if_neg (show ¬(keyToString k = p.1) from
          fun he => hstr_notin (by rw [he]; exact List.mem_map.mpr ⟨p, h, rfl⟩))]
        exact hA p h
      · simp at h
        rw [h, if_pos rfl]
        show some t = some E.meta.updatedAt
        rw [hEupd]
    by_cases hlt : s.entries.length < N
    · -- no eviction: every touched key is still stored
      have hD_eq : distinctCount (past.map (fun o => keyToString o.2.1)) =
          s.entries.length := by
        omega
      have hsub : (s.entries.map Prod.fst).toFinset ⊆
          (past.map (fun o => keyToString o.2.1)).toFinset := by
        intro x hx
        rw [List.mem_toFinset] at hx ⊢
        obtain ⟨p, hp, rfl⟩ := List.mem_map.mp hx
        exact (lastWrite_isSome_iff past p.1).mp (by rw [hA p hp]; rfl)
      have hcard_ge : ((past.map (fun o => keyToString o.2.1)).toFinset).card ≤
          ((s.entries.map Prod.fst).toFinset).card := by
        rw [List.toFinset_card_of_nodup hnd, ← distinctCount_eq_card, hD_eq, List.length_map]
      have hfeq := Finset.eq_of_subset_of_card_le hsub hcard_ge
      have htouch_stored : ∀ str2, str2 ∈ past.map (fun o => keyToString o.2.1) →
          str2 ∈ s.entries.map Prod.fst := by
        intro str2 h
        have h1 : str2 ∈ (s.entries.map Prod.fst).toFinset := by
          rw [hfeq]
          exact List.mem_toFinset.mpr h
        exact List.mem_toFinset.mp h1
      have huntouch : keyToString k ∉ past.map (fun o => keyToString o.2.1) :=
        fun h => hstr_notin (htouch_stored _ h)
      have henf : enforceMaxEntries { s with entries := s.entries ++ [(keyToString k, E)] } =
          { s with entries := s.entries ++ [(keyToString k, E)] } :=
        enforce_noop _ N hmax
          (show (s.entries ++ [(keyToString k, E)]).length ≤ N by simp; omega)
      rw [henf]
      refine ⟨hnd_mid, hwf_mid, hA_mid, ?_, ?_⟩
      · show (s.entries ++ [(keyToString k, E)]).length = _
        rw [hmap1, distinctCount_append_single, if_neg huntouch]
        simp only [List.length_append, List.length_cons, List.length_nil]
        omega
      · intro p hp str2 u hstr2 hlw
        exfalso
        rw [lastWrite_append_single] at hlw
        by_cases he : keyToString k = str2
        · apply hstr2
          rw [← he, hmapmid]
          simp
        · rw [if_neg he] at hlw
          apply hstr2
          have h1 := htouch_stored str2
            ((lastWrite_isSome_iff past str2).mp (by rw [hlw]; rfl))
          rw [hmapmid]
          exact List.mem_append.mpr (Or.inl h1)
    · -- store is full: one eviction, by minimal updatedAt with the stable
      -- tie-break (the earliest enumerated among the minima)
      have hle2 : s.entries.length ≤ N := by
        rw [hB]
        exact Nat.min_le_right _ _
      have hlenN : s.entries.length = N := by omega
      have hmid_len : (s.entries ++ [(keyToString k, E)]).length = N + 1 := by
        simp [hlenN]
      obtain ⟨g1, p0, g2, hgsplit, hstrict, hle0, henf⟩ :=
        enforce_evict_first { s with entries := s.entries ++ [(keyToString k, E)] } N hmax hN
          hmid_len hwf_mid
      rw [henf]
      have hgsplit2 : s.entries ++ [(keyToString k, E)] = g1 ++ p0 :: g2 := hgsplit
      have hp0mem : p0 ∈ s.entries ++ [(keyToString k, E)] := by
        rw [hgsplit2]
        exact List.mem_append.mpr (Or.inr (List.mem_cons_self _ _))
      have hp0min : ∀ q ∈ s.entries ++ [(keyToString k, E)],
          p0.2.meta.updatedAt ≤ q.2.meta.updatedAt := by
        intro q hq
        rw [hgsplit2] at hq
        rcases List.mem_append.mp hq with h | h
        · exact Nat.le_of_lt (hstrict q h)
        · rcases List.mem_cons.mp h with h | h
          · exact le_of_eq (by rw [h])
          · exact hle0 q h
      have hp0_old : p0 ∈ s.entries := by
        rcases List.mem_append.mp hp0mem with h | h
        · exact h
        · exfalso
          simp only [List.mem_singleton] at h
          have hg1nil : g1 = [] := by
            cases hg1 : g1 with
            | nil => rfl
            | cons x xs =>
              exfalso
              have hxmem : x ∈ s.entries ++ [(keyToString k, E)] := by
                rw [hgsplit2, hg1]
                simp
              have hxle : x.2.meta.updatedAt ≤ t := by
                rcases List.mem_append.mp hxmem with h2 | h2
                · exact hle_all x h2
                · simp only [List.mem_singleton] at h2
                  rw [h2]
                  show E.meta.updatedAt ≤ t
                  rw [hEupd]
              have hst := hstrict x (by rw [hg1]; simp)
              rw [h] at hst
              rw [show (keyToString k, E).2.meta.updatedAt = t from hEupd] at hst
              omega
          rw [hg1nil, List.nil_append] at hgsplit2
          cases hse : s.entries with
          | nil =>
            rw [hse] at hlenN
            simp at hlenN
            omega
          | cons a restE =>
            rw [hse, List.cons_append] at hgsplit2
            rw [List.cons.injEq] at hgsplit2
            have h1 := hgsplit2.1
            exact hstr_notin (List.mem_map.mpr
              ⟨a, by rw [hse]; exact List.mem_cons_self _ _, by rw [h1, h]⟩)
      have hp0_ne_str : ¬(p0.1 = keyToString k) :=
        fun he => hstr_notin (by rw [← he]; exact List.mem_map.mpr ⟨p0, hp0_old, rfl⟩)
      have hstr_ne_p0 : ¬(keyToString k = p0.1) := fun he => hp0_ne_str he.symm
      have hfin_len := filter_remove_one hnd_mid hp0mem
      have hstrE_fin : (keyToString k, E) ∈
          (s.entries ++ [(keyToString k, E)]).filter (fun q => ¬(q.1 = p0.1)) := by
        rw [mem_filter_ne]
        exact ⟨List.mem_append.mpr (Or.inr (by simp)), hstr_ne_p0⟩
      refine ⟨?_, ?_, ?_, ?_, ?_⟩
      · show ((List.filter _ (s.entries ++ [(keyToString k, E)])).map Prod.fst).Nodup
        exact hnd_mid.sublist (List.Sublist.map Prod.fst (List.filter_sublist _))
      · intro p hp
        exact hwf_mid p ((mem_filter_ne _ _ p).mp hp).1
      · intro p hp
        exact hA_mid p ((mem_filter_ne _ _ p).mp hp).1
      · show (List.filter _ (s.entries ++ [(keyToString k, E)])).length = _
        rw [hfin_len, hmid_len, hmap1, distinctCount_append_single]
        by_cases hmem : keyToString k ∈ past.map (fun o => keyToString o.2.1)
        · rw [if_pos hmem]
          omega
        · rw [if_neg hmem]
          omega
      · intro p hp str2 u hstr2 hlw
        rw [lastWrite_append_single] at hlw
        have hstr_in_fin : keyToString k ∈
            ((s.entries ++ [(keyToString k, E)]).filter
              (fun q => ¬(q.1 = p0.1))).map Prod.fst :=
          List.mem_map.mpr ⟨_, hstrE_fin, rfl⟩
        have hne2 : ¬(keyToString k = str2) := fun he => hstr2 (he ▸ hstr_in_fin)
        rw [if_neg hne2] at hlw
        have hp2 := (mem_filter_ne _ _ p).mp hp
        by_cases hstr2_old : str2 ∈ s.entries.map Prod.fst
        · obtain ⟨q2, hq2, hq2e⟩ := List.mem_map.mp hstr2_old
          have hq2_p0 : q2.1 = p0.1 := by
            by_contra hne3
            apply hstr2
            apply List.mem_map.mpr
            refine ⟨q2, ?_, hq2e⟩
            rw [mem_filter_ne]
            exact ⟨List.mem_append.mpr (Or.inl hq2), hne3⟩
          have hstr2_p0 : str2 = p0.1 := by rw [← hq2e, hq2_p0]
          have hup0 := hA p0 hp0_old
          rw [hstr2_p0, hup0] at hlw
          injection hlw with hu
          rw [← hu]
          exact hp0min p hp2.1
        · rcases List.mem_append.mp hp2.1 with h | h
          · exact hC p h str2 u hstr2_old hlw
          · simp at h
            rw [h]
            show u ≤ E.meta.updatedAt
            rw [hEupd]
            obtain ⟨o, ho, hoe⟩ := List.mem_map.mp (lastWrite_mem_time past str2 u hlw)
            rw [← hoe]
            exact hmono o ho

theorem evictInv_holds {α : Type} (N : Nat) (hN : 1 ≤ N) :
    ∀ ops : List (Nat × QueryKey × α),
      ops.Pairwise (fun a b => a.1 ≤ b.1) →
      EvictInv ops (runSets (emptyCache α (some N)) ops) N := by
  intro ops
  induction ops using List.reverseRecOn with
  | nil =>
    intro _
    refine ⟨?_, ?_, ?_, ?_, ?_⟩
    · simp [runSets, emptyCache]
    · intro p hp
      simp [runSets, emptyCache] at hp
    · intro p hp
      simp [runSets, emptyCache] at hp
    · simp [runSets, emptyCache, distinctCount]
    · intro p hp
      simp [runSets, emptyCache] at hp
  | append_singleton past op ih =>
    intro hmono
    obtain ⟨t, k, d⟩ := op
    rw [List.pairwise_append] at hmono
    obtain ⟨hm1, _, hrel⟩ := hmono
    have hrun : runSets (emptyCache α (some N)) (past ++ [(t, k, d)]) =
        ((runSets (emptyCache α (some N)) past).set t k d none).1 := by
      rw [runSets_append]
      rfl
    rw [hrun]
    exact evictInv_step N hN past t k d (runSets (emptyCache α (some N)) past)
      (runSets_maxEntries past (emptyCache α (some N)))
      (fun o ho => hrel o ho (t, k, d) (by simp)) (ih hm1)

/-- C5 at the refuting input `N = 0`: the claim quantifies over every
configured bound, but `maxEntries = 0` is falsy in JS
(`if (!this.maxEntries) return`), so eviction is disabled: after one `set`
call (more than `0` distinct keys) the store holds `1 ≠ 0` entries. -/
theorem maxEntries_zero_no_eviction :
    0 < distinctCount (([(0, [Segment.str "a"], (0 : Nat))] :
        List (Nat × QueryKey × Nat)).map (fun o => keyToString o.2.1)) ∧
      (runSets (emptyCache Nat (some 0)) [(0, [Segment.str "a"], 0)]).entries.length = 1 := by
  decide

/-- C5 (amended to positive bounds): with `maxEntries = N ≥ 1` configured,
after any sequence of `set` calls from an empty cache — each carrying the
`Date.now()` timestamp of the call, nondecreasing along the run — that
touches more than `N` distinct keys, the store holds exactly `N` entries,
each stored entry's `updatedAt` is the time of its key's last write, and
no touched but evicted key was written later than any stored entry, so
the survivors are the `N` keys with the greatest `updatedAt` timestamps;
moreover eviction removes entries in ascending `updatedAt` order with
ties broken by the stable enumeration order: on any over-bound store it
deletes exactly the first `size - N` elements of the unique `updatedAt`-
ascending reordering of the enumerated entries that keeps entries of
equal `updatedAt` in their enumeration order.  (The original claim also
covered `maxEntries = 0`, where `if (!this.maxEntries) return` disables
eviction entirely — see the counterexample.) -/
theorem eviction_bound_holds {α : Type} (N : Nat) (hN : 1 ≤ N) :
    (∀ ops : List (Nat × QueryKey × α),
      ops.Pairwise (fun a b => a.1 ≤ b.1) →
      N < distinctCount (ops.map (fun o => keyToString o.2.1)) →
      (runSets (emptyCache α (some N)) ops).entries.length = N ∧
        (∀ p ∈ (runSets (emptyCache α (some N)) ops).entries,
          lastWrite p.1 ops = some p.2.meta.updatedAt) ∧
        (∀ p ∈ (runSets (emptyCache α (some N)) ops).entries, ∀ str2 u,
          str2 ∉ (runSets (emptyCache α (some N)) ops).entries.map Prod.fst →
          lastWrite str2 ops = some u → u ≤ p.2.meta.updatedAt)) ∧
    (∀ (s : QueryCache α) (l : List (CacheEntry α)),
      s.maxEntries = some N →
      N < s.entries.length →
      l.Pairwise (fun a b => a.meta.updatedAt ≤ b.meta.updatedAt) →
      (∀ tt, l.filter (fun x => x.meta.updatedAt = tt) =
        (s.entries.map (fun p => p.2)).filter (fun x => x.meta.updatedAt = tt)) →
      enforceMaxEntries s =
        { s with entries :=
            s.entries.filter (fun p => ¬(p.1 ∈ (l.take (s.entries.length - N)).map
              (fun e => keyToString e.key))) }) := by
  constructor
  · intro ops hmono hD
    obtain ⟨_, _, hA, hB, hC⟩ := evictInv_holds N hN ops hmono
    refine ⟨?_, hA, hC⟩
    rw [hB]
    omega
  · intro s l hm hgt hsort hstable
    exact enforce_stable_prefix s N hm hN hgt l hsort hstable

/-- Witness for the amended C5 at concrete inputs with tied timestamps:
two writes to distinct keys at the same clock value under bound 1, and a
tied two-entry over-bound store on which eviction deletes the first
enumerated entry. -/
theorem eviction_bound_holds_witness :
    ((1 ≤ 1 ∧
      ([(5, [Segment.str "a"], 0), (5, [Segment.str "b"], (0 : Nat))] :
        List (Nat × QueryKey × Nat)).Pairwise (fun a b => a.1 ≤ b.1) ∧
      1 < distinctCount (([(5, [Segment.str "a"], 0), (5, [Segment.str "b"], 0)] :
        List (Nat × QueryKey × Nat)).map (fun o => keyToString o.2.1))) ∧
      (c5TieCache.maxEntries = some 1 ∧
        1 < c5TieCache.entries.length ∧
        (c5TieCache.entries.map (fun p => p.2)).Pairwise
          (fun a b => a.meta.updatedAt ≤ b.meta.updatedAt))) ∧
    (((runSets (emptyCache Nat (some 1))
        [(5, [Segment.str "a"], 0), (5, [Segment.str "b"], 0)]).entries.length = 1 ∧
      (∀ p ∈ (runSets (emptyCache Nat (some 1))
          [(5, [Segment.str "a"], 0), (5, [Segment.str "b"], 0)]).entries,
        lastWrite p.1 ([(5, [Segment.str "a"], 0), (5, [Segment.str "b"], 0)] :
          List (Nat × QueryKey × Nat)) = some p.2.meta.updatedAt) ∧
      (∀ p ∈ (runSets (emptyCache Nat (some 1))
          [(5, [Segment.str "a"], 0), (5, [Segment.str "b"], 0)]).entries, ∀ str2 u,
        str2 ∉ (runSets (emptyCache Nat (some 1))
          [(5, [Segment.str "a"], 0), (5, [Segment.str "b"], 0)]).entries.map Prod.fst →
        lastWrite str2 ([(5, [Segment.str "a"], 0), (5, [Segment.str "b"], 0)] :
          List (Nat × QueryKey × Nat)) = some u → u ≤ p.2.meta.updatedAt)) ∧
      enforceMaxEntries c5TieCache =
        { c5TieCache with entries :=
            c5TieCache.entries.filter (fun p => ¬(p.1 ∈
              (((c5TieCache.entries.map (fun p => p.2)).take
                (c5TieCache.entries.length - 1)).map (fun e => keyToString e.key)))) }) :=
  ⟨⟨⟨Nat.le_refl 1, by decide, by decide⟩, ⟨rfl, by decide, by decide⟩⟩,
    (eviction_bound_holds 1 (Nat.le_refl 1)).1
      [(5, [Segment.str "a"], 0), (5, [Segment.str "b"], 0)] (by decide) (by decide),
    (eviction_bound_holds 1 (Nat.le_refl 1)).2 c5TieCache
      (c5TieCache.entries.map (fun p => p.2)) rfl (by decide) (by decide)
      (fun tt => rfl)⟩
